import Mathlib

/-!
Verification of the log2trace core: trace-tree construction (trace-tree.ts),
flatten / time-range traversal, nanosecond-to-millisecond time conversion
(time.ts), timeline tick generation (template.ts) and the zoom/pan viewport
state machine of the web component (component.ts, bounded-pan variant).

Modelling conventions:
* Nanosecond timestamps are carried by the source as decimal strings and are
  always consumed through BigInt(s), an exact arbitrary-precision parse; a
  well-formed decimal string is therefore represented by its exact integer
  value, a Nat.
* JavaScript Map objects are modelled as association lists in key insertion
  order: Map.set on a present key updates the value in place (keeping the
  original position), otherwise appends; Map.values() is the list of values
  in that order.  This matches the ECMAScript iteration-order contract.
* JavaScript number arithmetic on viewport and tick values is modelled over
  exact rationals; the claims settled about those components depend only on
  order and field identities, not on rounding.  The one claim that is about
  precision (the nano-to-milli conversion) models the final Number()
  conversion of a bigint exactly, by rounding to the nearest 53-bit float.
-/

/-- Span record from types/opentelemetry/trace.ts.  Only the fields consulted
by the verified core (identity, parent link, timing) are carried; the
remaining metadata fields (name, kind, attributes, events, links, status) are
never read by TraceTree.build, flatten or getTimeRange. -/
structure Span where
  spanId : String
  parentSpanId : Option String
  startTimeUnixNano : Nat
  endTimeUnixNano : Nat
  deriving DecidableEq, Repr

/-- AnyValue from types/opentelemetry/common.ts; only stringValue is consulted
by extractString, the single reader the verified core uses. -/
structure AnyValue where
  stringValue : Option String
  deriving DecidableEq, Repr

/-- KeyValue attribute pair from types/opentelemetry/common.ts. -/
structure KeyValue where
  key : String
  value : AnyValue
  deriving DecidableEq, Repr

/-- Resource from types/opentelemetry/resource.ts: the attribute list read by
extractServiceName. -/
structure Resource where
  attributes : List KeyValue
  deriving DecidableEq, Repr

/-- ScopeSpans group (types/opentelemetry/trace.ts). -/
structure ScopeSpans where
  spans : List Span
  deriving DecidableEq, Repr

/-- ResourceSpans group (types/opentelemetry/trace.ts). -/
structure ResourceSpans where
  resource : Resource
  scopeSpans : List ScopeSpans
  deriving DecidableEq, Repr

/-- Top-level TraceData document (types/opentelemetry/trace.ts). -/
structure TraceData where
  resourceSpans : List ResourceSpans
  deriving DecidableEq, Repr

/-! ## Time conversion (time.ts / types/trace-tree.ts `nanoToMilli`)

The source is `Number(BigInt(nano) / 1_000_000n)`: an exact bigint floor
division followed by the ECMAScript Number() conversion, which returns the
IEEE-754 double nearest to the bigint (ties to even).  `jsNumberOfNat` models
that conversion on naturals: below 2^53 it is the identity, above it rounds
to the nearest multiple of the appropriate power of two.  (The conversion
overflows to Infinity only beyond the double range near 1.8e308, far outside
anything reachable here, so that case is not modelled.) -/

/-- Number of halvings needed to bring q strictly below 2^53, computed with
structural fuel (the first argument; any fuel at least log2 q suffices and
the callers pass q itself). -/
def floatExp : Nat → Nat → Nat
  | 0, _ => 0
  | fuel + 1, q => if q < 2 ^ 53 then 0 else floatExp fuel (q / 2) + 1

/-- ECMAScript Number(bigint) on a natural number: the integer value of the
IEEE-754 double nearest to q, rounding ties to even.  Exact for q ≤ 2^53. -/
def jsNumberOfNat (q : Nat) : Nat :=
  let e := floatExp q q
  if e = 0 then q
  else
    let u := q / 2 ^ e
    let r := q % 2 ^ e
    let half := 2 ^ (e - 1)
    (if r < half then u else if half < r then u + 1
     else if u % 2 = 0 then u else u + 1) * 2 ^ e

/-- nanoToMilli from time.ts: `Number(BigInt(nano) / 1_000_000n)`.  The bigint
division truncates; the final Number() conversion is `jsNumberOfNat`. -/
def nanoToMilli (nano : Nat) : Nat :=
  jsNumberOfNat (nano / 1000000)

lemma floatExp_eq_zero {fuel q : Nat} (h : q < 2 ^ 53) : floatExp fuel q = 0 := by
  cases fuel with
  | zero => rfl
  | succ n =>
      unfold floatExp
      rw [if_pos h]

lemma jsNumberOfNat_of_lt {q : Nat} (h : q < 2 ^ 53) : jsNumberOfNat q = q := by
  unfold jsNumberOfNat
  rw [floatExp_eq_zero h]
  simp

lemma jsNumberOfNat_two_pow_53 : jsNumberOfNat (2 ^ 53) = 2 ^ 53 := by decide

lemma jsNumberOfNat_of_le {q : Nat} (h : q ≤ 2 ^ 53) : jsNumberOfNat q = q := by
  rcases Nat.lt_or_ge q (2 ^ 53) with h1 | h1
  · exact jsNumberOfNat_of_lt h1
  · have : q = 2 ^ 53 := Nat.le_antisymm h h1
    rw [this]
    exact jsNumberOfNat_two_pow_53

/-- Claim C6, counterexample: at n = (2^54 + 1) · 10^6 the conversion returns
2^54 = 18014398509481984, not the exact quotient 2^54 + 1 = 18014398509481985:
the final Number() conversion of the bigint quotient rounds once the quotient
itself exceeds 2^53.  (In JavaScript, Number(18014398509481985n) is
18014398509481984.) -/
theorem nanoToMilli_counterexample :
    nanoToMilli 18014398509481985000000 = 18014398509481984 ∧
    18014398509481985000000 / 1000000 = 18014398509481985 ∧
    nanoToMilli 18014398509481985000000 ≠ 18014398509481985000000 / 1000000 := by
  refine ⟨by decide, by decide, by decide⟩

/-- Claim C6, amended: for every well-formed decimal-string input n whose
millisecond quotient does not exceed 2^53 (that is, n below about 9.0e21
nanoseconds, roughly 285,000 years), the conversion returns exactly
floor(n / 1,000,000): the string is parsed with arbitrary-precision BigInt
semantics and the division truncates toward zero, so there is no precision
loss even when n itself exceeds 2^53.  Beyond that bound the final Number()
conversion rounds (see the counterexample). -/
theorem nanoToMilli_exact (n : Nat) (h : n / 1000000 ≤ 2 ^ 53) :
    nanoToMilli n = n / 1000000 :=
  jsNumberOfNat_of_le h

/-- Witness for nanoToMilli_exact at a concrete input above 2^53 nanoseconds:
9007199254740992999999 ns (which exceeds 2^53 = 9007199254740992) converts
to exactly floor(n / 10^6) = 9007199254740992 ms, right at the 2^53 quotient
boundary. -/
theorem nanoToMilli_exact_witness :
    9007199254740992999999 / 1000000 ≤ 2 ^ 53 ∧
    nanoToMilli 9007199254740992999999 = 9007199254740992 := by
  refine ⟨by decide, ?_⟩
  rw [nanoToMilli_exact 9007199254740992999999 (by decide)]

/-! ## Timeline tick generation (template.ts `Template.calculateTickCount` and
the tick loop of `Template.getTimelineTicksMarkup`) -/

/-- Template.calculateTickCount.  The argument is optional in the source
(`containerWidth?: number`); `containerWidth || 600` falls back to 600 both
when the argument is absent and when it is falsy, in particular when it is 0. -/
def calculateTickCount (containerWidth : Option ℚ) : ℤ :=
  let width : ℚ :=
    match containerWidth with
    | none => 600
    | some w => if w = 0 then 600 else w
  let minTickSpacing : ℚ := 90
  max 2 ⌊width / minTickSpacing⌋

/-- The (position, relativeTime) pairs computed by the loop of
Template.getTimelineTicksMarkup for i in 0..ticks inclusive:
position = (i / ticks) * 100 (a CSS percentage, i.e. the position fraction
times 100) and relativeTime = duration * i / ticks with
duration = timeRange.max - timeRange.min. -/
def getTimelineTicks (timeRange : ℚ × ℚ) (ticks : ℕ) : List (ℚ × ℚ) :=
  let duration := timeRange.2 - timeRange.1
  (List.range (ticks + 1)).map
    (fun (i : ℕ) => (((i : ℚ) / (ticks : ℚ)) * 100, duration * (i : ℚ) / (ticks : ℚ)))

/-- Claim C7, counterexample: tickCount is not monotone on all widths w ≥ 0.
At width 0 the `containerWidth || 600` fallback treats 0 as absent and uses
600 pixels, giving 6 ticks, while width 90 gives 2 ticks: 0 ≤ 90 but
tickCount 0 = 6 > 2 = tickCount 90. -/
theorem calculateTickCount_counterexample :
    (0 : ℚ) ≤ 90 ∧
    calculateTickCount (some 0) = 6 ∧
    calculateTickCount (some 90) = 2 ∧
    ¬ calculateTickCount (some 0) ≤ calculateTickCount (some 90) := by
  have h0 : calculateTickCount (some 0) = 6 := by
    norm_num [calculateTickCount]
  have h90 : calculateTickCount (some 90) = 2 := by
    norm_num [calculateTickCount]
  refine ⟨by norm_num, h0, h90, ?_⟩
  rw [h0, h90]
  norm_num

/-- Claim C7, amended: tickCount is monotone on strictly positive widths
(for 0 < w1 ≤ w2, tickCount w1 ≤ tickCount w2; at width 0 the or-default
fallback to 600 breaks monotonicity, see the counterexample), and
tickCount w ≥ 2 for every width w ≥ 0 (indeed for every w). -/
theorem calculateTickCount_props :
    (∀ w1 w2 : ℚ, 0 < w1 → w1 ≤ w2 →
      calculateTickCount (some w1) ≤ calculateTickCount (some w2)) ∧
    (∀ w : ℚ, 0 ≤ w → 2 ≤ calculateTickCount (some w)) := by
  constructor
  · intro w1 w2 h1 h12
    have h2 : (0 : ℚ) < w2 := lt_of_lt_of_le h1 h12
    simp only [calculateTickCount, if_neg (ne_of_gt h1), if_neg (ne_of_gt h2)]
    have : ⌊w1 / 90⌋ ≤ ⌊w2 / 90⌋ := by
      apply Int.floor_le_floor
      gcongr
    exact max_le_max le_rfl this
  · intro w _
    simp only [calculateTickCount]
    exact le_max_left 2 _

/-- Witness for calculateTickCount_props at concrete widths 90 ≤ 450:
2 = tickCount 90 ≤ tickCount 450 = 5, and tickCount 0 = 6 ≥ 2. -/
theorem calculateTickCount_props_witness :
    calculateTickCount (some 90) ≤ calculateTickCount (some 450) ∧
    2 ≤ calculateTickCount (some 0) :=
  ⟨calculateTickCount_props.1 90 450 (by norm_num) (by norm_num),
   calculateTickCount_props.2 0 (by norm_num)⟩

/-- Claim C8: for every time range (min, max) and tick count c ≥ 1 the loop
of getTimelineTicksMarkup produces exactly c + 1 ticks; the i-th tick
(0 ≤ i ≤ c) has position (i / c) · 100 percent — position fraction i / c —
and relative time (max - min) · i / c; in particular tick 0 sits at fraction
0 with relative time 0 and tick c at fraction 1 (position 100 percent) with
relative time max - min. -/
theorem getTimelineTicks_spec (mn mx : ℚ) (c : ℕ) (hc : 1 ≤ c) :
    (getTimelineTicks (mn, mx) c).length = c + 1 ∧
    (∀ i : ℕ, i ≤ c →
      (getTimelineTicks (mn, mx) c)[i]? =
        some (((i : ℚ) / (c : ℚ)) * 100, (mx - mn) * (i : ℚ) / (c : ℚ))) ∧
    (getTimelineTicks (mn, mx) c)[0]? = some (0, 0) ∧
    (getTimelineTicks (mn, mx) c)[c]? = some (100, mx - mn) := by
  have hc0 : (c : ℚ) ≠ 0 := by
    have : c ≠ 0 := by omega
    exact_mod_cast this
  have hlen : (getTimelineTicks (mn, mx) c).length = c + 1 := by
    simp only [getTimelineTicks, List.length_map, List.length_range]
  have hget : ∀ i : ℕ, i ≤ c →
      (getTimelineTicks (mn, mx) c)[i]? =
        some (((i : ℚ) / (c : ℚ)) * 100, (mx - mn) * (i : ℚ) / (c : ℚ)) := by
    intro i hi
    have hi1 : i < c + 1 := Nat.lt_succ_of_le hi
    simp only [getTimelineTicks, List.getElem?_map, List.getElem?_range hi1]
    rfl
  refine ⟨hlen, hget, ?_, ?_⟩
  · rw [hget 0 (Nat.zero_le c)]
    norm_num
  · rw [hget c le_rfl]
    rw [div_self hc0, mul_div_assoc, div_self hc0]
    norm_num

/-- Witness for getTimelineTicks_spec at time range (5, 25) with 4 ticks:
5 ticks are produced, the middle tick i = 2 is at position 50 percent with
relative time 10, and the endpoints are (0, 0) and (100, 20). -/
theorem getTimelineTicks_spec_witness :
    (getTimelineTicks ((5 : ℚ), (25 : ℚ)) 4).length = 4 + 1 ∧
    (getTimelineTicks ((5 : ℚ), (25 : ℚ)) 4)[2]? = some (50, 10) ∧
    (getTimelineTicks ((5 : ℚ), (25 : ℚ)) 4)[0]? = some (0, 0) ∧
    (getTimelineTicks ((5 : ℚ), (25 : ℚ)) 4)[4]? = some (100, 20) := by
  obtain ⟨h1, h2, h3, h4⟩ := getTimelineTicks_spec 5 25 4 (by norm_num)
  norm_num at h4
  refine ⟨h1, ?_, h3, h4⟩
  rw [h2 2 (by norm_num)]
  norm_num

/-! ## Viewport zoom/pan state machine (component.ts, bounded-pan variant)

The component fields zoomLevel, panOffset, isPanning, panStartX and
panStartOffset are gathered into an explicit state; each DOM event handler of
attachZoomPanListeners / addZoomControls becomes one transition.  Every
handler that changes zoomLevel or panOffset calls updateZoomPan, whose first
action is clampPanOffset; the mousedown / mouseup / mouseleave handlers touch
neither field.  Decimal factors (0.9, 1.1, 1.2, 0.8) are modelled as exact
rationals; the pan-bound invariant depends only on the clamping, not on the
exact zoom values. -/

/-- The zoom/pan state held by TraceVisualizerElement. -/
structure ViewportState where
  zoomLevel : ℚ
  panOffset : ℚ
  isPanning : Bool
  panStartX : ℚ
  panStartOffset : ℚ
  deriving DecidableEq, Repr

/-- Initial state: zoomLevel 1, panOffset 0, not panning. -/
def initialViewport : ViewportState :=
  { zoomLevel := 1, panOffset := 0, isPanning := false,
    panStartX := 0, panStartOffset := 0 }

/-- TraceVisualizerElement.clampPanOffset: if the scaled content is no wider
than the container, force panOffset to 0; otherwise clamp it into
[-(scaledWidth - containerWidth), 0]. -/
def clampPanOffset (containerWidth : ℚ) (st : ViewportState) : ViewportState :=
  let scaledWidth := containerWidth * st.zoomLevel
  if scaledWidth ≤ containerWidth then { st with panOffset := 0 }
  else
    let maxPan : ℚ := 0
    let minPan : ℚ := -(scaledWidth - containerWidth)
    { st with panOffset := max minPan (min maxPan st.panOffset) }

/-- One DOM event feeding the zoom/pan handlers.  wheel carries the sign of
deltaY; mousedown carries the pointer x and whether the guard (primary
button, target not a span bar) passed; mousemove carries the pointer x. -/
inductive ViewportEvent where
  | wheel (deltaYPpositive : Bool)
  | mousedown (clientX : ℚ) (primaryNonSpanTarget : Bool)
  | mousemove (clientX : ℚ)
  | mouseup
  | mouseleave
  | dblclick
  | zoomInClick
  | zoomOutClick
  | zoomResetClick
  deriving DecidableEq, Repr

/-- The event handlers of attachZoomPanListeners and addZoomControls
(bounded-pan variant).  updateZoomPan is modelled by its state effect, the
clampPanOffset call; the rest of updateZoomPan only rewrites DOM styles and
tick markup. -/
def viewportStep (containerWidth : ℚ) (st : ViewportState) :
    ViewportEvent → ViewportState
  | .wheel deltaYPositive =>
      let delta : ℚ := if deltaYPositive then 9 / 10 else 11 / 10
      let newZoom := max 1 (min 10 (st.zoomLevel * delta))
      if newZoom ≠ st.zoomLevel then
        clampPanOffset containerWidth { st with zoomLevel := newZoom }
      else st
  | .mousedown clientX primaryNonSpanTarget =>
      if primaryNonSpanTarget then
        { st with isPanning := true, panStartX := clientX,
                  panStartOffset := st.panOffset }
      else st
  | .mousemove clientX =>
      if st.isPanning then
        clampPanOffset containerWidth
          { st with panOffset := st.panStartOffset + (clientX - st.panStartX) }
      else st
  | .mouseup =>
      if st.isPanning then { st with isPanning := false } else st
  | .mouseleave =>
      if st.isPanning then { st with isPanning := false } else st
  | .dblclick =>
      clampPanOffset containerWidth { st with zoomLevel := 1, panOffset := 0 }
  | .zoomInClick =>
      clampPanOffset containerWidth
        { st with zoomLevel := min 10 (st.zoomLevel * (12 / 10)) }
  | .zoomOutClick =>
      clampPanOffset containerWidth
        { st with zoomLevel := max 1 (st.zoomLevel * (8 / 10)) }
  | .zoomResetClick =>
      clampPanOffset containerWidth { st with zoomLevel := 1, panOffset := 0 }

/-- Folding a sequence of events from the initial state. -/
def runViewport (containerWidth : ℚ) (events : List ViewportEvent) :
    ViewportState :=
  events.foldl (viewportStep containerWidth) initialViewport

/-- The pan-bound invariant of the spec: nothing to pan at or below unit
scale, otherwise panOffset lies in [-(scaledWidth - containerWidth), 0]. -/
def PanInvariant (containerWidth : ℚ) (st : ViewportState) : Prop :=
  if containerWidth * st.zoomLevel ≤ containerWidth then st.panOffset = 0
  else -(containerWidth * st.zoomLevel - containerWidth) ≤ st.panOffset ∧
    st.panOffset ≤ 0

lemma panInvariant_clamp (w : ℚ) (st : ViewportState) :
    PanInvariant w (clampPanOffset w st) := by
  unfold PanInvariant clampPanOffset
  by_cases h : w * st.zoomLevel ≤ w
  · simp [h]
  · simp only [h, if_neg, if_false]
    constructor
    · exact le_max_left _ _
    · apply max_le
      · have : 0 < w * st.zoomLevel - w := by
          have := lt_of_not_ge h
          linarith
        linarith
      · exact min_le_left _ _

lemma panInvariant_step (w : ℚ) (st : ViewportState) (e : ViewportEvent)
    (h : PanInvariant w st) : PanInvariant w (viewportStep w st e) := by
  cases e with
  | wheel d =>
      simp only [viewportStep]
      rcases ne_or_eq
          (max 1 (min 10 (st.zoomLevel * (if d then (9 : ℚ) / 10 else 11 / 10))))
          st.zoomLevel with he | he
      · rw [if_pos he]
        exact panInvariant_clamp w _
      · rw [if_neg (not_not_intro he)]
        exact h
  | mousedown x g =>
      simp only [viewportStep]
      split
      · unfold PanInvariant at h ⊢
        simpa using h
      · exact h
  | mousemove x =>
      simp only [viewportStep]
      split
      · exact panInvariant_clamp w _
      · exact h
  | mouseup =>
      simp only [viewportStep]
      split
      · unfold PanInvariant at h ⊢
        simpa using h
      · exact h
  | mouseleave =>
      simp only [viewportStep]
      split
      · unfold PanInvariant at h ⊢
        simpa using h
      · exact h
  | dblclick => exact panInvariant_clamp w _
  | zoomInClick => exact panInvariant_clamp w _
  | zoomOutClick => exact panInvariant_clamp w _
  | zoomResetClick => exact panInvariant_clamp w _

/-- Claim C5: after every sequence of wheel, pan (mousedown / mousemove /
mouseup / mouseleave), double-click, zoom-button and reset operations applied
to the viewport state, if containerWidth · zoomLevel ≤ containerWidth then
panOffset = 0, and otherwise
-(containerWidth · zoomLevel - containerWidth) ≤ panOffset ≤ 0. -/
theorem viewport_pan_invariant (w : ℚ) (events : List ViewportEvent) :
    PanInvariant w (runViewport w events) := by
  have hinit : PanInvariant w initialViewport := by
    unfold PanInvariant initialViewport
    simp
  unfold runViewport
  induction events using List.reverseRecOn with
  | nil => exact hinit
  | append_singleton l e ih =>
      rw [List.foldl_append, List.foldl_cons, List.foldl_nil]
      exact panInvariant_step w _ e ih

/-! ## JavaScript Map model

Association lists in key insertion order.  Map.set on a present key updates
the value in place, keeping the original position; on an absent key it
appends.  Map.values() iterates in that order.  Both match the ECMAScript
Map contract used by TraceTree.build. -/

/-- Map.has. -/
def jsMapHas {β : Type} (m : List (String × β)) (k : String) : Bool :=
  m.any (fun kv => kv.1 == k)

/-- Map.get (none models undefined). -/
def jsMapGet {β : Type} (m : List (String × β)) (k : String) : Option β :=
  (m.find? (fun kv => kv.1 == k)).map (fun kv => kv.2)

/-- Map.set. -/
def jsMapSet {β : Type} (m : List (String × β)) (k : String) (v : β) :
    List (String × β) :=
  if jsMapHas m k then
    m.map (fun kv => if kv.1 == k then (kv.1, v) else kv)
  else m ++ [(k, v)]

/-- Map.values. -/
def jsMapValues {β : Type} (m : List (String × β)) : List β :=
  m.map (fun kv => kv.2)

/-! ## TraceTree.build (trace-tree.ts) -/

/-- extractString from types/opentelemetry/common.ts: `value?.stringValue`. -/
def extractString (value : Option AnyValue) : Option String :=
  value.bind (fun v => v.stringValue)

/-- TraceTree.extractServiceName: the resource attribute with key
"service.name", extracted as a string, defaulting to "unknown-service". -/
def extractServiceName (resourceSpan : ResourceSpans) : String :=
  let serviceNameAttr :=
    resourceSpan.resource.attributes.find? (fun attr => attr.key == "service.name")
  (extractString (serviceNameAttr.map (fun attr => attr.value))).getD "unknown-service"

/-- All spans of the document in the nested iteration order of build's first
pass (resourceSpans, then scopeSpans, then spans). -/
def docSpans (traceData : TraceData) : List Span :=
  traceData.resourceSpans.flatMap
    (fun resourceSpan => resourceSpan.scopeSpans.flatMap (fun scopeSpan => scopeSpan.spans))

/-- First pass of TraceTree.build, spanMap part: index every span by spanId
(`spanMap.set(span.spanId, span)`), in document order.  The serviceNameOf map
built by the same loop is modelled separately below; the two maps never
interact. -/
def spanMap (traceData : TraceData) : List (String × Span) :=
  (docSpans traceData).foldl (fun m span => jsMapSet m span.spanId span) []

/-- First pass of TraceTree.build, serviceNameOf part:
`serviceNameOf.set(span.spanId, serviceName)` with the service name extracted
once per resource group. -/
def serviceMap (traceData : TraceData) : List (String × String) :=
  traceData.resourceSpans.foldl
    (fun m resourceSpan =>
      (resourceSpan.scopeSpans.flatMap (fun scopeSpan => scopeSpan.spans)).foldl
        (fun m span => jsMapSet m span.spanId (extractServiceName resourceSpan)) m)
    []

/-- spanMap.values(): the indexed spans in first-insertion key order with
last-written values, the sequence build's second pass iterates. -/
def indexSpans (traceData : TraceData) : List Span :=
  jsMapValues (spanMap traceData)

/-- JavaScript truthiness of span.parentSpanId: undefined and the empty
string are falsy. -/
def parentTruthy (s : Span) : Option String :=
  match s.parentSpanId with
  | none => none
  | some p => if p = "" then none else some p

/-- The guard of build's second pass,
`span.parentSpanId && spanMap.has(span.parentSpanId)`, as the resolved parent
key: some p when the span carries a truthy parent id p that is present in the
index, none otherwise. -/
def resolvedKey (m : List (String × Span)) (s : Span) : Option String :=
  match parentTruthy s with
  | none => none
  | some p => if jsMapHas m p then some p else none

/-- Second pass of TraceTree.build: for each indexed span, either append it
to its resolved parent's child list (`siblings = childrenOf.get(p) || [];
siblings.push(span); childrenOf.set(p, siblings)`) or push it to roots. -/
def linkSpans (m : List (String × Span)) : List Span × List (String × List Span) :=
  (jsMapValues m).foldl
    (fun acc s =>
      match resolvedKey m s with
      | some p => (acc.1, jsMapSet acc.2 p ((jsMapGet acc.2 p).getD [] ++ [s]))
      | none => (acc.1 ++ [s], acc.2))
    ([], [])

/-- One step of the stable sort: insert x before the first element with a
strictly greater start time, after all elements with smaller-or-equal start
time. -/
def insertByStart (x : Span) : List Span → List Span
  | [] => [x]
  | y :: ys =>
      if y.startTimeUnixNano < x.startTimeUnixNano then y :: insertByStart x ys
      else x :: y :: ys

/-- The sort of build's third pass.  The source calls Array.prototype.sort
with compareByStartTime, which compares BigInt(startTimeUnixNano) values
exactly; ECMAScript specifies sort to be stable, and with a consistent
comparator the stable sorted permutation is unique, so this stable insertion
sort computes exactly the source's result. -/
def sortByStart : List Span → List Span
  | [] => []
  | x :: xs => insertByStart x (sortByStart xs)

/-- The normalized trace tree (trace-tree.ts): root spans, children and
service names by span id. -/
structure TraceTree where
  roots : List Span
  childrenOf : List (String × List Span)
  serviceNameOf : List (String × String)
  deriving DecidableEq, Repr

/-- TraceTree.build: index the document's spans, link children under parents
that exist in the index (everything else becomes a root), then sort the root
list and every child list by start time. -/
def TraceTree.build (traceData : TraceData) : TraceTree :=
  let m := spanMap traceData
  let linked := linkSpans m
  { roots := sortByStart linked.1
  , childrenOf := linked.2.map (fun kv => (kv.1, sortByStart kv.2))
  , serviceNameOf := serviceMap traceData }

/-- The child list consulted by flatten: `childrenOf.get(span.spanId)`, with
a missing or empty entry giving no recursion. -/
def childrenLookup (t : TraceTree) (id : String) : List Span :=
  (jsMapGet t.childrenOf id).getD []

/-- Total number of span occurrences stored in the tree. -/
def spanCount (t : TraceTree) : Nat :=
  t.roots.length + (t.childrenOf.map (fun kv => kv.2.length)).sum

/-- The recursive walk of TraceTree.flatten, with structural fuel bounding
the recursion depth.  The source's walk, whenever it terminates, never nests
deeper than the number of stored spans: along any recursion path the visited
spans are pairwise distinct (a repeat would make the walk recurse forever),
and each one after the root is a distinct stored child occurrence.  The fuel
spanCount t + 2 used by flatten therefore reproduces the source's output
exactly on every input on which the source terminates. -/
def walkFlatten (t : TraceTree) : Nat → List Span → Nat → List (Span × Nat)
  | 0, _, _ => []
  | fuel + 1, spans, level =>
      spans.flatMap
        (fun s => (s, level) :: walkFlatten t fuel (childrenLookup t s.spanId) (level + 1))

/-- TraceTree.flatten: pre-order walk from the roots at level 0. -/
def TraceTree.flatten (t : TraceTree) : List (Span × Nat) :=
  walkFlatten t (spanCount t + 2) t.roots 0

/-- The `if (start < min) min = start` accumulator of getTimeRange; none
models the initial Infinity sentinel. -/
def updMin (acc : Option Nat) (x : Nat) : Option Nat :=
  match acc with
  | none => some x
  | some m => if x < m then some x else some m

/-- The `if (end > max) max = end` accumulator of getTimeRange; none models
the initial -Infinity sentinel. -/
def updMax (acc : Option Nat) (x : Nat) : Option Nat :=
  match acc with
  | none => some x
  | some m => if x > m then some x else some m

/-- TraceTree.getTimeRange: (0, 0) for an empty flatten, otherwise the
minimum converted start time and maximum converted end time over the
flattened spans.  The fold never leaves the sentinels in place on a nonempty
list, so the final getD defaults are unreachable there. -/
def TraceTree.getTimeRange (t : TraceTree) : Nat × Nat :=
  let flat := t.flatten
  if flat.length = 0 then (0, 0)
  else
    let acc := flat.foldl
      (fun acc e =>
        (updMin acc.1 (nanoToMilli e.1.startTimeUnixNano),
         updMax acc.2 (nanoToMilli e.1.endTimeUnixNano)))
      (none, none)
    (acc.1.getD 0, acc.2.getD 0)

/-! ## Lemmas about the Map model -/

lemma jsMapGet_nil {β : Type} (k : String) : jsMapGet ([] : List (String × β)) k = none := rfl

lemma jsMapGet_cons {β : Type} (kv : String × β) (m : List (String × β)) (k : String) :
    jsMapGet (kv :: m) k = if kv.1 = k then some kv.2 else jsMapGet m k := by
  by_cases h : kv.1 = k
  · have hb : (kv.1 == k) = true := by simpa using h
    simp [jsMapGet, List.find?_cons, hb, h]
  · have hb : (kv.1 == k) = false := by simpa using h
    simp [jsMapGet, List.find?_cons, hb, h]

lemma jsMapHas_nil {β : Type} (k : String) : jsMapHas ([] : List (String × β)) k = false := rfl

lemma jsMapHas_cons {β : Type} (kv : String × β) (m : List (String × β)) (k : String) :
    jsMapHas (kv :: m) k = ((kv.1 == k) || jsMapHas m k) := by
  simp [jsMapHas]

lemma jsMapGet_map_update {β : Type} (m : List (String × β)) (k k1 : String) (v : β) :
    jsMapGet (m.map (fun kv => if kv.1 == k then (kv.1, v) else kv)) k1 =
      if k1 = k then (if jsMapHas m k then some v else none) else jsMapGet m k1 := by
  induction m with
  | nil => by_cases h : k1 = k <;> simp [jsMapGet, jsMapHas, h]
  | cons kv m ih =>
      simp only [List.map_cons]
      by_cases hd : kv.1 = k
      · have hb : (kv.1 == k) = true := by simpa using hd
        rw [if_pos hb]
        rw [jsMapGet_cons, jsMapGet_cons, jsMapHas_cons, hb]
        by_cases h1 : k1 = k
        · have : kv.1 = k1 := by rw [hd, h1]
          simp [this, h1]
        · have : ¬ kv.1 = k1 := by
            rw [hd]
            intro hc
            exact h1 hc.symm
          simp only [this, if_false, ih, h1]
      · have hb : (kv.1 == k) = false := by simpa using hd
        rw [if_neg (by simp [hb])]
        rw [jsMapGet_cons, jsMapGet_cons, jsMapHas_cons, hb]
        by_cases h2 : kv.1 = k1
        · have h1 : ¬ k1 = k := by
            rw [← h2]
            intro hc
            exact hd hc
          simp [h2, h1]
        · simp only [h2, if_false, ih]
          simp

lemma jsMapGet_append_single {β : Type} (m : List (String × β)) (k k1 : String) (v : β)
    (h : jsMapHas m k = false) :
    jsMapGet (m ++ [(k, v)]) k1 = if k1 = k then some v else jsMapGet m k1 := by
  induction m with
  | nil =>
      rw [List.nil_append, jsMapGet_cons, jsMapGet_nil]
      by_cases hk : k = k1
      · simp [hk]
      · have hk1 : ¬ k1 = k := fun hc => hk hc.symm
        simp [hk, hk1]
  | cons kv m ih =>
      rw [jsMapHas_cons, Bool.or_eq_false_iff] at h
      have ih2 := ih h.2
      rw [List.cons_append, jsMapGet_cons, jsMapGet_cons, ih2]
      by_cases hh : kv.1 = k1
      · have hk1 : ¬ k1 = k := by
          intro hc
          have : (kv.1 == k) = true := by simp [hh, hc]
          rw [h.1] at this
          cases this
        simp [hh, hk1]
      · simp [hh]

lemma jsMapGet_jsMapSet {β : Type} (m : List (String × β)) (k k1 : String) (v : β) :
    jsMapGet (jsMapSet m k v) k1 = if k1 = k then some v else jsMapGet m k1 := by
  unfold jsMapSet
  cases h : jsMapHas m k with
  | true =>
      rw [if_pos rfl, jsMapGet_map_update m k k1 v, h]
      simp
  | false =>
      rw [if_neg (by simp)]
      exact jsMapGet_append_single m k k1 v h

lemma jsMapKeys_jsMapSet {β : Type} (m : List (String × β)) (k : String) (v : β) :
    (jsMapSet m k v).map (fun kv => kv.1) =
      if jsMapHas m k then m.map (fun kv => kv.1) else m.map (fun kv => kv.1) ++ [k] := by
  unfold jsMapSet
  by_cases h : jsMapHas m k
  · simp only [h, if_true, List.map_map]
    apply List.map_congr_left
    intro kv _
    by_cases hh : kv.1 = k <;> simp [hh]
  · simp [h]

lemma jsMapHas_iff_mem_keys {β : Type} (m : List (String × β)) (k : String) :
    jsMapHas m k = true ↔ k ∈ m.map (fun kv => kv.1) := by
  simp only [jsMapHas, List.any_eq_true, List.mem_map, beq_iff_eq]


lemma jsMapGet_eq_some_of_mem {β : Type} (m : List (String × β)) (k : String) (v : β)
    (hnd : (m.map (fun kv => kv.1)).Nodup) (hmem : (k, v) ∈ m) :
    jsMapGet m k = some v := by
  induction m with
  | nil => cases hmem
  | cons kv m ih =>
      simp only [List.map_cons, List.nodup_cons] at hnd
      rw [jsMapGet_cons]
      rcases List.mem_cons.mp hmem with h | h
      · subst h
        simp
      · have hk : ¬ kv.1 = k := by
          intro hc
          exact hnd.1 (by
            rw [hc]
            exact List.mem_map.mpr ⟨(k, v), h, rfl⟩)
        rw [if_neg hk]
        exact ih hnd.2 h

lemma mem_of_jsMapGet_eq_some {β : Type} (m : List (String × β)) (k : String) (v : β)
    (h : jsMapGet m k = some v) : (k, v) ∈ m ∧ v ∈ jsMapValues m := by
  unfold jsMapGet at h
  cases hf : m.find? (fun kv => kv.1 == k) with
  | none =>
      rw [hf] at h
      cases h
  | some kv =>
      rw [hf] at h
      have hmem := List.mem_of_find?_eq_some hf
      have hkey : kv.1 = k := by
        have := List.find?_some hf
        simpa using this
      have hv : kv.2 = v := by simpa using h
      constructor
      · have : kv = (k, v) := by
          cases kv
          simp_all
        rw [← this]
        exact hmem
      · exact List.mem_map.mpr ⟨kv, hmem, hv⟩

lemma jsMapGet_isSome_of_has {β : Type} (m : List (String × β)) (k : String)
    (h : jsMapHas m k = true) : ∃ v, jsMapGet m k = some v := by
  induction m with
  | nil => cases h
  | cons kv m ih =>
      rw [jsMapHas_cons, Bool.or_eq_true] at h
      rw [jsMapGet_cons]
      by_cases hh : kv.1 = k
      · exact ⟨kv.2, by simp [hh]⟩
      · rw [if_neg hh]
        apply ih
        rcases h with h | h
        · exact absurd (by simpa using h) hh
        · exact h

lemma jsMapValues_map_snd_fun {β γ : Type} (m : List (String × β)) (f : β → γ) :
    jsMapGet (m.map (fun kv => (kv.1, f kv.2))) = fun k => (jsMapGet m k).map f := by
  funext k
  induction m with
  | nil => rfl
  | cons kv m ih =>
      rw [List.map_cons, jsMapGet_cons, jsMapGet_cons]
      by_cases hh : kv.1 = k
      · simp [hh]
      · simp only [hh, if_false, ih]

/-! ## Lemmas about the first build pass (spanMap) -/

/-- Key/value discipline of spanMap: keys are unique and each binding maps a
span id to a span carrying that id. -/
def mapWF (m : List (String × Span)) : Prop :=
  ((m.map (fun kv => kv.1)).Nodup) ∧ ∀ kv ∈ m, kv.1 = kv.2.spanId

lemma mapWF_jsMapSet (m : List (String × Span)) (v : Span) (h : mapWF m) :
    mapWF (jsMapSet m v.spanId v) := by
  constructor
  · rw [jsMapKeys_jsMapSet]
    by_cases hh : jsMapHas m v.spanId
    · simp [hh, h.1]
    · rw [if_neg (by simp [hh])]
      have hnot : v.spanId ∉ m.map (fun kv => kv.1) := by
        intro hc
        exact hh ((jsMapHas_iff_mem_keys m v.spanId).mpr hc)
      simp [List.nodup_append, h.1, hnot]
  · intro kv hkv
    unfold jsMapSet at hkv
    by_cases hh : jsMapHas m v.spanId
    · rw [if_pos hh] at hkv
      obtain ⟨kv0, hkv0, heq⟩ := List.mem_map.mp hkv
      by_cases hk : kv0.1 = v.spanId
      · rw [← heq]
        simp [hk]
      · rw [← heq]
        simp only [hk, beq_iff_eq, if_neg hk]
        exact h.2 kv0 hkv0
    · rw [if_neg (by simp [hh])] at hkv
      rcases List.mem_append.mp hkv with hm | hm
      · exact h.2 kv hm
      · simp only [List.mem_singleton] at hm
        rw [hm]
  
lemma mapWF_fold (l : List Span) (m0 : List (String × Span)) (h : mapWF m0) :
    mapWF (l.foldl (fun m s => jsMapSet m s.spanId s) m0) := by
  induction l generalizing m0 with
  | nil => exact h
  | cons x l ih =>
      rw [List.foldl_cons]
      exact ih _ (mapWF_jsMapSet m0 x h)

lemma spanMap_WF (td : TraceData) : mapWF (spanMap td) :=
  mapWF_fold (docSpans td) [] ⟨List.nodup_nil, by intro kv h; cases h⟩

/-- Claim C9 ingredient: the index is last-write-wins; looking up an id in
spanMap yields the last span of the document carrying that id. -/
lemma spanMap_get_eq_getLast (td : TraceData) (id : String) :
    jsMapGet (spanMap td) id =
      ((docSpans td).filter (fun s => s.spanId == id)).getLast? := by
  unfold spanMap
  induction docSpans td using List.reverseRecOn with
  | nil => rfl
  | append_singleton l x ih =>
      rw [List.foldl_append, List.foldl_cons, List.foldl_nil, jsMapGet_jsMapSet,
        List.filter_append]
      by_cases h : id = x.spanId
      · rw [if_pos h]
        have hx : List.filter (fun s => s.spanId == id) [x] = [x] := by
          simp [h.symm]
        rw [hx, List.getLast?_concat]
      · rw [if_neg h]
        have hx : List.filter (fun s => s.spanId == id) [x] = [] := by
          simp
          intro hc
          exact absurd hc.symm h
        rw [hx, List.append_nil]
        exact ih

lemma indexSpans_ids_eq_keys (td : TraceData) :
    (indexSpans td).map (fun s => s.spanId) = (spanMap td).map (fun kv => kv.1) := by
  unfold indexSpans jsMapValues
  rw [List.map_map]
  exact ((spanMap_WF td).2 |> fun h => (List.map_congr_left (fun kv hkv => (h kv hkv).symm)))

lemma indexSpans_ids_nodup (td : TraceData) :
    ((indexSpans td).map (fun s => s.spanId)).Nodup := by
  rw [indexSpans_ids_eq_keys]
  exact (spanMap_WF td).1

lemma indexSpans_nodup (td : TraceData) : (indexSpans td).Nodup :=
  (indexSpans_ids_nodup td).of_map

lemma mem_indexSpans_iff (td : TraceData) (s : Span) :
    s ∈ indexSpans td ↔ jsMapGet (spanMap td) s.spanId = some s := by
  constructor
  · intro h
    obtain ⟨kv, hkv, hv⟩ := List.mem_map.mp h
    have hk : kv.1 = s.spanId := by
      rw [(spanMap_WF td).2 kv hkv, hv]
    apply jsMapGet_eq_some_of_mem _ _ _ (spanMap_WF td).1
    have : kv = (s.spanId, s) := by
      cases kv
      simp_all
    rw [← this]
    exact hkv
  · intro h
    exact (mem_of_jsMapGet_eq_some _ _ _ h).2

lemma jsMapValues_jsMapSet_mem {β : Type} (m : List (String × β)) (k : String)
    (v x : β) (hx : x ∈ jsMapValues (jsMapSet m k v)) :
    x ∈ jsMapValues m ∨ x = v := by
  unfold jsMapSet at hx
  unfold jsMapValues at hx ⊢
  by_cases hh : jsMapHas m k
  · rw [if_pos hh, List.map_map] at hx
    obtain ⟨kv, hkv, hval⟩ := List.mem_map.mp hx
    by_cases hk : kv.1 = k
    · right
      have hb : (kv.1 == k) = true := by simpa using hk
      simp only [Function.comp_apply, hb, if_pos] at hval
      exact hval.symm
    · left
      apply List.mem_map.mpr
      refine ⟨kv, hkv, ?_⟩
      simpa [hk] using hval
  · rw [if_neg (by simp [hh]), List.map_append] at hx
    rcases List.mem_append.mp hx with h1 | h1
    · exact Or.inl h1
    · right
      simpa using h1

lemma indexSpans_subset (td : TraceData) : indexSpans td ⊆ docSpans td := by
  unfold indexSpans spanMap
  have main : ∀ (l : List Span) (m0 : List (String × Span)),
      ∀ x ∈ jsMapValues (l.foldl (fun m s => jsMapSet m s.spanId s) m0),
        x ∈ jsMapValues m0 ∨ x ∈ l := by
    intro l
    induction l with
    | nil =>
        intro m0 x hx
        exact Or.inl hx
    | cons y l ih =>
        intro m0 x hx
        rw [List.foldl_cons] at hx
        rcases ih _ x hx with hm | hm
        · rcases jsMapValues_jsMapSet_mem m0 y.spanId y x hm with h1 | h1
          · exact Or.inl h1
          · exact Or.inr (by simp [h1])
        · exact Or.inr (List.mem_cons_of_mem y hm)
  intro x hx
  rcases main (docSpans td) [] x hx with h | h
  · cases h
  · exact h

/-- With globally distinct span ids the index is the document span list
itself: no overwriting happens. -/
lemma indexSpans_of_nodup (td : TraceData)
    (h : ((docSpans td).map (fun s => s.spanId)).Nodup) :
    indexSpans td = docSpans td := by
  unfold indexSpans spanMap
  have main : ∀ (l : List Span), (l.map (fun s => s.spanId)).Nodup →
      l.foldl (fun m s => jsMapSet m s.spanId s) [] =
        l.map (fun s => (s.spanId, s)) := by
    intro l
    induction l using List.reverseRecOn with
    | nil => intro _; rfl
    | append_singleton l x ih =>
        intro hnd
        rw [List.map_append, List.nodup_append] at hnd
        have ihe := ih hnd.1
        rw [List.foldl_append, List.foldl_cons, List.foldl_nil, ihe]
        have hnot : ¬ jsMapHas (l.map (fun s => (s.spanId, s))) x.spanId = true := by
          rw [jsMapHas_iff_mem_keys]
          intro hc
          rw [List.map_map] at hc
          have : x.spanId ∈ l.map (fun s => s.spanId) := by
            simpa using hc
          exact hnd.2.2 this (by simp)
        unfold jsMapSet
        rw [if_neg hnot, List.map_append]
        simp
  rw [main (docSpans td) h]
  unfold jsMapValues
  rw [List.map_map]
  have hid : ((fun kv : String × Span => kv.2) ∘ fun s : Span => (s.spanId, s)) = id := rfl
  rw [hid, List.map_id]

lemma jsMapHas_spanMap_iff (td : TraceData) (p : String) :
    jsMapHas (spanMap td) p = true ↔ ∃ w ∈ indexSpans td, w.spanId = p := by
  constructor
  · intro h
    obtain ⟨v, hv⟩ := jsMapGet_isSome_of_has _ _ h
    obtain ⟨hmem, hval⟩ := mem_of_jsMapGet_eq_some _ _ _ hv
    refine ⟨v, hval, ?_⟩
    exact ((spanMap_WF td).2 (p, v) hmem).symm
  · rintro ⟨w, hw, rfl⟩
    rw [jsMapHas_iff_mem_keys, ← indexSpans_ids_eq_keys]
    exact List.mem_map.mpr ⟨w, hw, rfl⟩

/-! ## Lemmas about the second build pass (linkSpans) -/

lemma linkSpans_fold_roots (m : List (String × Span)) (l : List Span)
    (acc : List Span × List (String × List Span)) :
    (l.foldl
      (fun acc s =>
        match resolvedKey m s with
        | some p => (acc.1, jsMapSet acc.2 p ((jsMapGet acc.2 p).getD [] ++ [s]))
        | none => (acc.1 ++ [s], acc.2))
      acc).1 =
      acc.1 ++ l.filter (fun s => (resolvedKey m s).isNone) := by
  induction l generalizing acc with
  | nil => simp
  | cons x l ih =>
      rw [List.foldl_cons]
      cases hx : resolvedKey m x with
      | some p =>
          simp only [hx]
          rw [ih]
          have : (resolvedKey m x).isNone = false := by simp [hx]
          rw [List.filter_cons, this]
          simp
      | none =>
          simp only [hx]
          rw [ih]
          have : (resolvedKey m x).isNone = true := by simp [hx]
          rw [List.filter_cons, this]
          simp

lemma linkSpans_fold_children (m : List (String × Span)) (l : List Span)
    (acc : List Span × List (String × List Span)) (p : String) :
    (jsMapGet
      (l.foldl
        (fun acc s =>
          match resolvedKey m s with
          | some q => (acc.1, jsMapSet acc.2 q ((jsMapGet acc.2 q).getD [] ++ [s]))
          | none => (acc.1 ++ [s], acc.2))
        acc).2 p).getD [] =
      (jsMapGet acc.2 p).getD [] ++
        l.filter (fun s => resolvedKey m s == some p) := by
  induction l generalizing acc with
  | nil => simp
  | cons x l ih =>
      rw [List.foldl_cons]
      cases hx : resolvedKey m x with
      | some q =>
          simp only [hx]
          rw [ih]
          by_cases hpq : p = q
          · subst hpq
            rw [jsMapGet_jsMapSet]
            rw [if_pos rfl]
            have : (resolvedKey m x == some p) = true := by simp [hx]
            rw [List.filter_cons, this]
            simp
          · rw [jsMapGet_jsMapSet, if_neg hpq]
            have : (resolvedKey m x == some p) = false := by
              simp only [hx]
              simpa using fun hc => hpq hc.symm
            rw [List.filter_cons, this]
            simp
      | none =>
          simp only [hx]
          rw [ih]
          have : (resolvedKey m x == some p) = false := by simp [hx]
          rw [List.filter_cons, this]
          simp

lemma linkSpans_roots (m : List (String × Span)) :
    (linkSpans m).1 = (jsMapValues m).filter (fun s => (resolvedKey m s).isNone) := by
  unfold linkSpans
  rw [linkSpans_fold_roots]
  simp

lemma linkSpans_children (m : List (String × Span)) (p : String) :
    (jsMapGet (linkSpans m).2 p).getD [] =
      (jsMapValues m).filter (fun s => resolvedKey m s == some p) := by
  unfold linkSpans
  rw [linkSpans_fold_children]
  simp [jsMapGet]

/-! ## Lemmas about the stable sort -/

lemma insertByStart_perm (x : Span) (l : List Span) :
    List.Perm (insertByStart x l) (x :: l) := by
  induction l with
  | nil => rfl
  | cons y ys ih =>
      unfold insertByStart
      by_cases h : y.startTimeUnixNano < x.startTimeUnixNano
      · rw [if_pos h]
        exact (ih.cons y).trans (List.Perm.swap x y ys)
      · rw [if_neg h]

lemma sortByStart_perm (l : List Span) : List.Perm (sortByStart l) l := by
  induction l with
  | nil => rfl
  | cons x xs ih =>
      unfold sortByStart
      exact (insertByStart_perm x (sortByStart xs)).trans (ih.cons x)

lemma insertByStart_pairwise (x : Span) (l : List Span)
    (h : l.Pairwise (fun a b => a.startTimeUnixNano ≤ b.startTimeUnixNano)) :
    (insertByStart x l).Pairwise
      (fun a b => a.startTimeUnixNano ≤ b.startTimeUnixNano) := by
  induction l with
  | nil => simp [insertByStart]
  | cons y ys ih =>
      rw [List.pairwise_cons] at h
      unfold insertByStart
      by_cases hlt : y.startTimeUnixNano < x.startTimeUnixNano
      · rw [if_pos hlt]
        rw [List.pairwise_cons]
        constructor
        · intro z hz
          rcases List.mem_cons.mp ((insertByStart_perm x ys).mem_iff.mp hz) with hz1 | hz1
          · rw [hz1]
            exact le_of_lt hlt
          · exact h.1 z hz1
        · exact ih h.2
      · rw [if_neg hlt]
        rw [List.pairwise_cons]
        constructor
        · intro z hz
          rcases List.mem_cons.mp hz with hz1 | hz1
          · rw [hz1]
            exact le_of_not_lt hlt
          · exact le_trans (le_of_not_lt hlt) (h.1 z hz1)
        · exact List.pairwise_cons.mpr h
  
lemma sortByStart_pairwise (l : List Span) :
    (sortByStart l).Pairwise (fun a b => a.startTimeUnixNano ≤ b.startTimeUnixNano) := by
  induction l with
  | nil => simp [sortByStart]
  | cons x xs ih =>
      unfold sortByStart
      exact insertByStart_pairwise x (sortByStart xs) ih

lemma insertByStart_filter_start (x : Span) (l : List Span) (n : Nat) :
    (insertByStart x l).filter (fun s => s.startTimeUnixNano == n) =
      if x.startTimeUnixNano = n
      then x :: l.filter (fun s => s.startTimeUnixNano == n)
      else l.filter (fun s => s.startTimeUnixNano == n) := by
  induction l with
  | nil =>
      by_cases h : x.startTimeUnixNano = n <;> simp [insertByStart, h]
  | cons y ys ih =>
      unfold insertByStart
      by_cases hlt : y.startTimeUnixNano < x.startTimeUnixNano
      · rw [if_pos hlt]
        by_cases hx : x.startTimeUnixNano = n
        · have hy : (y.startTimeUnixNano == n) = false := by
            have : y.startTimeUnixNano ≠ n := by
              intro hc
              rw [hx] at hlt
              rw [hc] at hlt
              exact lt_irrefl n hlt
            simpa using this
          rw [List.filter_cons, hy, List.filter_cons, hy, ih, if_pos hx]
          simp [hx]
        · rw [List.filter_cons, List.filter_cons, ih, if_neg hx]
          simp [hx]
      · rw [if_neg hlt]
        by_cases hx : x.startTimeUnixNano = n
        · have hxb : (x.startTimeUnixNano == n) = true := by simpa using hx
          rw [List.filter_cons, hxb, if_pos hx]
          simp
        · have hxb : (x.startTimeUnixNano == n) = false := by simpa using hx
          rw [List.filter_cons, hxb, if_neg hx]
          simp

lemma sortByStart_filter_start (l : List Span) (n : Nat) :
    (sortByStart l).filter (fun s => s.startTimeUnixNano == n) =
      l.filter (fun s => s.startTimeUnixNano == n) := by
  induction l with
  | nil => rfl
  | cons x xs ih =>
      unfold sortByStart
      rw [insertByStart_filter_start]
      by_cases hx : x.startTimeUnixNano = n
      · have hxb : (x.startTimeUnixNano == n) = true := by simpa using hx
        rw [if_pos hx, List.filter_cons, hxb, ih]
        simp
      · have hxb : (x.startTimeUnixNano == n) = false := by simpa using hx
        rw [if_neg hx, List.filter_cons, hxb, ih]
        simp

/-! ## Characterizations of the built tree -/

lemma build_roots (td : TraceData) :
    (TraceTree.build td).roots =
      sortByStart ((indexSpans td).filter
        (fun s => (resolvedKey (spanMap td) s).isNone)) := by
  have h0 : (TraceTree.build td).roots = sortByStart (linkSpans (spanMap td)).1 := rfl
  rw [h0, linkSpans_roots]
  rfl

lemma build_childrenOf (td : TraceData) :
    (TraceTree.build td).childrenOf =
      (linkSpans (spanMap td)).2.map (fun kv => (kv.1, sortByStart kv.2)) := rfl

lemma build_childrenLookup (td : TraceData) (p : String) :
    childrenLookup (TraceTree.build td) p =
      sortByStart ((indexSpans td).filter
        (fun s => resolvedKey (spanMap td) s == some p)) := by
  have h0 : childrenLookup (TraceTree.build td) p =
      (jsMapGet ((linkSpans (spanMap td)).2.map (fun kv => (kv.1, sortByStart kv.2))) p).getD
        [] := rfl
  rw [h0]
  unfold indexSpans
  have hmap := congrFun (jsMapValues_map_snd_fun (linkSpans (spanMap td)).2 sortByStart) p
  rw [hmap]
  have hchar := linkSpans_children (spanMap td) p
  cases hget : jsMapGet (linkSpans (spanMap td)).2 p with
  | none =>
      rw [hget] at hchar
      simp only [Option.getD_none] at hchar
      simp only [Option.map_none', Option.getD_none]
      rw [← hchar]
      rfl
  | some L =>
      rw [hget] at hchar
      simp only [Option.getD_some] at hchar
      simp only [Option.map_some', Option.getD_some]
      rw [hchar]

lemma mem_build_roots_iff (td : TraceData) (s : Span) :
    s ∈ (TraceTree.build td).roots ↔
      s ∈ indexSpans td ∧ resolvedKey (spanMap td) s = none := by
  rw [build_roots]
  rw [(sortByStart_perm _).mem_iff, List.mem_filter]
  simp [Option.isNone_iff_eq_none]

lemma mem_childrenLookup_iff (td : TraceData) (p : String) (s : Span) :
    s ∈ childrenLookup (TraceTree.build td) p ↔
      s ∈ indexSpans td ∧ resolvedKey (spanMap td) s = some p := by
  rw [build_childrenLookup]
  rw [(sortByStart_perm _).mem_iff, List.mem_filter]
  simp

lemma build_roots_nodup (td : TraceData) : (TraceTree.build td).roots.Nodup := by
  rw [build_roots]
  exact ((sortByStart_perm _).nodup_iff).mpr ((indexSpans_nodup td).filter _)

lemma childrenLookup_nodup (td : TraceData) (p : String) :
    (childrenLookup (TraceTree.build td) p).Nodup := by
  rw [build_childrenLookup]
  exact ((sortByStart_perm _).nodup_iff).mpr ((indexSpans_nodup td).filter _)

lemma keysNodup_jsMapSet {β : Type} (m : List (String × β)) (k : String) (v : β)
    (h : (m.map (fun kv => kv.1)).Nodup) :
    ((jsMapSet m k v).map (fun kv => kv.1)).Nodup := by
  rw [jsMapKeys_jsMapSet]
  by_cases hh : jsMapHas m k
  · simpa [hh] using h
  · have hnot : k ∉ m.map (fun kv => kv.1) := by
      intro hc
      exact hh ((jsMapHas_iff_mem_keys m k).mpr hc)
    simp [hh, List.nodup_append, h, hnot]

lemma linkSpans_keys_nodup (m : List (String × Span)) :
    (((linkSpans m).2).map (fun kv => kv.1)).Nodup := by
  unfold linkSpans
  have main : ∀ (l : List Span) (acc : List Span × List (String × List Span)),
      ((acc.2).map (fun kv => kv.1)).Nodup →
      (((l.foldl
        (fun acc s =>
          match resolvedKey m s with
          | some q => (acc.1, jsMapSet acc.2 q ((jsMapGet acc.2 q).getD [] ++ [s]))
          | none => (acc.1 ++ [s], acc.2))
        acc).2).map (fun kv => kv.1)).Nodup := by
    intro l
    induction l with
    | nil => intro acc h; exact h
    | cons x l ih =>
        intro acc h
        rw [List.foldl_cons]
        cases hx : resolvedKey m x with
        | some q => exact ih _ (keysNodup_jsMapSet _ _ _ h)
        | none => exact ih _ h
  exact main (jsMapValues m) ([], []) List.nodup_nil

/-- All spans stored in the tree: root spans followed by every child list. -/
def treeSpans (t : TraceTree) : List Span :=
  t.roots ++ t.childrenOf.flatMap (fun kv => kv.2)

lemma mem_treeSpans_cases (td : TraceData) (s : Span)
    (h : s ∈ treeSpans (TraceTree.build td)) :
    s ∈ (TraceTree.build td).roots ∨
      ∃ p, s ∈ childrenLookup (TraceTree.build td) p := by
  rcases List.mem_append.mp h with h1 | h1
  · exact Or.inl h1
  · right
    obtain ⟨kv, hkv, hs⟩ := List.mem_flatMap.mp h1
    refine ⟨kv.1, ?_⟩
    have hnd : ((TraceTree.build td).childrenOf.map (fun kv => kv.1)).Nodup := by
      rw [build_childrenOf, List.map_map]
      have : ((fun kv : String × List Span => kv.1) ∘
          fun kv : String × List Span => (kv.1, sortByStart kv.2)) =
          fun kv : String × List Span => kv.1 := rfl
      rw [this]
      exact linkSpans_keys_nodup (spanMap td)
    have hget : jsMapGet (TraceTree.build td).childrenOf kv.1 = some kv.2 := by
      apply jsMapGet_eq_some_of_mem _ _ _ hnd
      have : kv = (kv.1, kv.2) := rfl
      rw [← this]
      exact hkv
    unfold childrenLookup
    rw [hget]
    simpa using hs

/-! ## Claim C1 and C2 and C9 theorems -/

/-- Claim C1: after build() every indexed span is classified in exactly one
way.  A span whose parentSpanId is absent or empty (falsy), or whose parent
id does not occur as the spanId of any indexed span of the same document, is
placed in the root list and in no child list; a span whose truthy
parentSpanId resolves to an indexed span is placed in that parent's child
list and appears neither in the root list nor in any other child list. -/
theorem build_root_child_classification (td : TraceData) (s : Span)
    (h : s ∈ indexSpans td) :
    ((parentTruthy s = none ∨
        (∀ p, parentTruthy s = some p → ¬ ∃ w ∈ indexSpans td, w.spanId = p)) →
      s ∈ (TraceTree.build td).roots ∧
        ∀ p, s ∉ childrenLookup (TraceTree.build td) p) ∧
    (∀ p, parentTruthy s = some p → (∃ w ∈ indexSpans td, w.spanId = p) →
      s ∈ childrenLookup (TraceTree.build td) p ∧
        s ∉ (TraceTree.build td).roots ∧
        ∀ q, q ≠ p → s ∉ childrenLookup (TraceTree.build td) q) := by
  constructor
  · intro hroot
    have hrk : resolvedKey (spanMap td) s = none := by
      cases hpt : parentTruthy s with
      | none => simp [resolvedKey, hpt]
      | some p =>
          have hno : ¬ ∃ w ∈ indexSpans td, w.spanId = p := by
            rcases hroot with h1 | h1
            · rw [hpt] at h1
              cases h1
            · exact h1 p hpt
          have hb : jsMapHas (spanMap td) p = false := by
            cases hhb : jsMapHas (spanMap td) p with
            | false => rfl
            | true => exact absurd ((jsMapHas_spanMap_iff td p).mp hhb) hno
          simp [resolvedKey, hpt, hb]
    refine ⟨(mem_build_roots_iff td s).mpr ⟨h, hrk⟩, ?_⟩
    intro p hp
    have h2 := ((mem_childrenLookup_iff td p s).mp hp).2
    rw [hrk] at h2
    cases h2
  · intro p hpt hex
    have hb : jsMapHas (spanMap td) p = true := (jsMapHas_spanMap_iff td p).mpr hex
    have hrk : resolvedKey (spanMap td) s = some p := by
      simp [resolvedKey, hpt, hb]
    refine ⟨(mem_childrenLookup_iff td p s).mpr ⟨h, hrk⟩, ?_, ?_⟩
    · intro hr
      have h2 := ((mem_build_roots_iff td s).mp hr).2
      rw [hrk] at h2
      cases h2
    · intro q hq hmem
      have h2 := ((mem_childrenLookup_iff td q s).mp hmem).2
      rw [hrk] at h2
      exact hq (Option.some.inj h2.symm)

/-- Claim C2: after build() the root list and every child list are sorted
non-decreasing by start timestamp, and spans with equal start timestamp keep
their encounter order: filtering the sorted list to one start value yields
exactly the corresponding filter of the index sequence (the order in which
the second pass encountered the spans).  Start timestamps are modelled as
the exact integer values of the nanosecond decimal strings, which is what
the BigInt comparator of the source computes, so the order is exact at any
magnitude, in particular beyond 2^53. -/
theorem build_sorted_stable (td : TraceData) (p : String) (n : Nat) :
    ((TraceTree.build td).roots.Pairwise
      (fun a b => a.startTimeUnixNano ≤ b.startTimeUnixNano)) ∧
    ((childrenLookup (TraceTree.build td) p).Pairwise
      (fun a b => a.startTimeUnixNano ≤ b.startTimeUnixNano)) ∧
    ((TraceTree.build td).roots.filter (fun s => s.startTimeUnixNano == n) =
      ((indexSpans td).filter (fun s => (resolvedKey (spanMap td) s).isNone)).filter
        (fun s => s.startTimeUnixNano == n)) ∧
    ((childrenLookup (TraceTree.build td) p).filter
        (fun s => s.startTimeUnixNano == n) =
      ((indexSpans td).filter (fun s => resolvedKey (spanMap td) s == some p)).filter
        (fun s => s.startTimeUnixNano == n)) := by
  refine ⟨?_, ?_, ?_, ?_⟩
  · rw [build_roots]
    exact sortByStart_pairwise _
  · rw [build_childrenLookup]
    exact sortByStart_pairwise _
  · rw [build_roots, sortByStart_filter_start]
  · rw [build_childrenLookup, sortByStart_filter_start]

/-- Claim C9: build() absorbs referential anomalies instead of failing (in
this model build is a total function).  First, the identifier index is
last-write-wins: looking up an id returns the last document span carrying
it.  Second, only index values appear in the tree: every span stored in the
tree is the last-encountered span for its id.  Third, a dangling parent
reference (truthy parent id absent from the index) makes the span a root. -/
theorem build_referential_anomalies (td : TraceData) :
    (∀ id, jsMapGet (spanMap td) id =
      ((docSpans td).filter (fun s => s.spanId == id)).getLast?) ∧
    (∀ s, s ∈ treeSpans (TraceTree.build td) →
      jsMapGet (spanMap td) s.spanId = some s) ∧
    (∀ s, s ∈ indexSpans td → ∀ p, parentTruthy s = some p →
      jsMapHas (spanMap td) p = false → s ∈ (TraceTree.build td).roots) := by
  refine ⟨spanMap_get_eq_getLast td, ?_, ?_⟩
  · intro s hs
    rcases mem_treeSpans_cases td s hs with h1 | ⟨p, h1⟩
    · exact (mem_indexSpans_iff td s).mp ((mem_build_roots_iff td s).mp h1).1
    · exact (mem_indexSpans_iff td s).mp ((mem_childrenLookup_iff td p s).mp h1).1
  · intro s hs p hpt hb
    apply (mem_build_roots_iff td s).mpr
    refine ⟨hs, ?_⟩
    simp [resolvedKey, hpt, hb]

/-! ## Claim C4: getTimeRange bounds -/

lemma updMin_isSome (a : Option Nat) (x : Nat) : (updMin a x).isSome := by
  cases a with
  | none => rfl
  | some m =>
      unfold updMin
      by_cases h : x < m <;> simp [h]

lemma updMax_isSome (a : Option Nat) (x : Nat) : (updMax a x).isSome := by
  cases a with
  | none => rfl
  | some m =>
      unfold updMax
      by_cases h : x > m <;> simp [h]

lemma foldl_updMin_spec {γ : Type} (l : List γ) (f : γ → Nat) :
    ∀ (a : Option Nat) (m : Nat),
      l.foldl (fun acc x => updMin acc (f x)) a = some m →
      ((∃ x ∈ l, f x = m) ∨ a = some m) ∧ (∀ x ∈ l, m ≤ f x) ∧
        (∀ a0, a = some a0 → m ≤ a0) := by
  induction l with
  | nil =>
      intro a m h
      refine ⟨Or.inr h, ?_, ?_⟩
      · intro x hx
        cases hx
      · intro a0 ha0
        rw [ha0] at h
        exact le_of_eq (Option.some.inj h).symm
  | cons x l ih =>
      intro a m h
      rw [List.foldl_cons] at h
      obtain ⟨hmem, hall, hinit⟩ := ih (updMin a (f x)) m h
      have hx_le : m ≤ f x := by
        cases a with
        | none => exact hinit (f x) rfl
        | some a0 =>
            unfold updMin at hinit
            by_cases hlt : f x < a0
            · exact hinit (f x) (by simp [hlt])
            · exact le_trans (hinit a0 (by simp [hlt])) (le_of_not_lt hlt)
      refine ⟨?_, ?_, ?_⟩
      · rcases hmem with h1 | h1
        · obtain ⟨y, hy, hfy⟩ := h1
          exact Or.inl ⟨y, List.mem_cons_of_mem x hy, hfy⟩
        · cases a with
          | none =>
              unfold updMin at h1
              exact Or.inl ⟨x, List.mem_cons_self x l, Option.some.inj h1⟩
          | some a0 =>
              simp only [updMin] at h1
              by_cases hlt : f x < a0
              · rw [if_pos hlt] at h1
                exact Or.inl ⟨x, List.mem_cons_self x l, Option.some.inj h1⟩
              · rw [if_neg hlt] at h1
                exact Or.inr h1
      · intro y hy
        rcases List.mem_cons.mp hy with h1 | h1
        · rw [h1]
          exact hx_le
        · exact hall y h1
      · intro a0 ha0
        subst ha0
        unfold updMin at hinit
        by_cases hlt : f x < a0
        · exact le_trans (hinit (f x) (by simp [hlt])) (le_of_lt hlt)
        · exact hinit a0 (by simp [hlt])

lemma foldl_updMax_spec {γ : Type} (l : List γ) (f : γ → Nat) :
    ∀ (a : Option Nat) (m : Nat),
      l.foldl (fun acc x => updMax acc (f x)) a = some m →
      ((∃ x ∈ l, f x = m) ∨ a = some m) ∧ (∀ x ∈ l, f x ≤ m) ∧
        (∀ a0, a = some a0 → a0 ≤ m) := by
  induction l with
  | nil =>
      intro a m h
      refine ⟨Or.inr h, ?_, ?_⟩
      · intro x hx
        cases hx
      · intro a0 ha0
        rw [ha0] at h
        exact le_of_eq (Option.some.inj h)
  | cons x l ih =>
      intro a m h
      rw [List.foldl_cons] at h
      obtain ⟨hmem, hall, hinit⟩ := ih (updMax a (f x)) m h
      have hx_le : f x ≤ m := by
        cases a with
        | none => exact hinit (f x) rfl
        | some a0 =>
            unfold updMax at hinit
            by_cases hlt : f x > a0
            · exact hinit (f x) (by simp [hlt])
            · exact le_trans (le_of_not_lt hlt) (hinit a0 (by simp [hlt]))
      refine ⟨?_, ?_, ?_⟩
      · rcases hmem with h1 | h1
        · obtain ⟨y, hy, hfy⟩ := h1
          exact Or.inl ⟨y, List.mem_cons_of_mem x hy, hfy⟩
        · cases a with
          | none =>
              unfold updMax at h1
              exact Or.inl ⟨x, List.mem_cons_self x l, Option.some.inj h1⟩
          | some a0 =>
              simp only [updMax] at h1
              by_cases hlt : f x > a0
              · rw [if_pos hlt] at h1
                exact Or.inl ⟨x, List.mem_cons_self x l, Option.some.inj h1⟩
              · rw [if_neg hlt] at h1
                exact Or.inr h1
      · intro y hy
        rcases List.mem_cons.mp hy with h1 | h1
        · rw [h1]
          exact hx_le
        · exact hall y h1
      · intro a0 ha0
        subst ha0
        unfold updMax at hinit
        by_cases hlt : f x > a0
        · exact le_trans (le_of_lt hlt) (hinit (f x) (by simp [hlt]))
        · exact hinit a0 (by simp [hlt])

lemma foldl_updMin_isSome {γ : Type} (l : List γ) (f : γ → Nat) (a : Option Nat)
    (h : a.isSome = true ∨ l ≠ []) :
    (l.foldl (fun acc x => updMin acc (f x)) a).isSome = true := by
  induction l generalizing a with
  | nil =>
      rcases h with h | h
      · exact h
      · exact absurd rfl h
  | cons x l ih =>
      rw [List.foldl_cons]
      exact ih (updMin a (f x)) (Or.inl (updMin_isSome a (f x)))

lemma foldl_updMax_isSome {γ : Type} (l : List γ) (f : γ → Nat) (a : Option Nat)
    (h : a.isSome = true ∨ l ≠ []) :
    (l.foldl (fun acc x => updMax acc (f x)) a).isSome = true := by
  induction l generalizing a with
  | nil =>
      rcases h with h | h
      · exact h
      · exact absurd rfl h
  | cons x l ih =>
      rw [List.foldl_cons]
      exact ih (updMax a (f x)) (Or.inl (updMax_isSome a (f x)))

lemma timeRangeFold_split (l : List (Span × Nat)) (a b : Option Nat) :
    l.foldl
      (fun acc e =>
        (updMin acc.1 (nanoToMilli e.1.startTimeUnixNano),
         updMax acc.2 (nanoToMilli e.1.endTimeUnixNano)))
      (a, b) =
      (l.foldl (fun acc e => updMin acc (nanoToMilli e.1.startTimeUnixNano)) a,
       l.foldl (fun acc e => updMax acc (nanoToMilli e.1.endTimeUnixNano)) b) := by
  induction l generalizing a b with
  | nil => rfl
  | cons x l ih =>
      rw [List.foldl_cons, List.foldl_cons, List.foldl_cons]
      exact ih _ _

/-- Claim C4: getTimeRange returns (0, 0) on the empty tree; on a nonempty
tree it returns a pair (min, max) with min at most every flattened span's
converted start time and max at least every flattened span's converted end
time, min attained by some span's start and max by some span's end. -/
theorem getTimeRange_bounds (t : TraceTree) :
    (t.flatten = [] → t.getTimeRange = (0, 0)) ∧
    (t.flatten ≠ [] →
      (∀ e ∈ t.flatten,
        t.getTimeRange.1 ≤ nanoToMilli e.1.startTimeUnixNano ∧
          nanoToMilli e.1.endTimeUnixNano ≤ t.getTimeRange.2) ∧
      (∃ e ∈ t.flatten, t.getTimeRange.1 = nanoToMilli e.1.startTimeUnixNano) ∧
      (∃ e ∈ t.flatten, t.getTimeRange.2 = nanoToMilli e.1.endTimeUnixNano)) := by
  constructor
  · intro h
    unfold TraceTree.getTimeRange
    rw [h]
    rfl
  · intro h
    unfold TraceTree.getTimeRange
    rw [if_neg (by simpa [List.length_eq_zero] using h)]
    rw [timeRangeFold_split]
    obtain ⟨mv, hm⟩ := Option.isSome_iff_exists.mp
      (foldl_updMin_isSome t.flatten (fun e => nanoToMilli e.1.startTimeUnixNano)
        none (Or.inr h))
    obtain ⟨Mv, hM⟩ := Option.isSome_iff_exists.mp
      (foldl_updMax_isSome t.flatten (fun e => nanoToMilli e.1.endTimeUnixNano)
        none (Or.inr h))
    obtain ⟨hmem1, hall1, _⟩ := foldl_updMin_spec t.flatten _ none mv hm
    obtain ⟨hmem2, hall2, _⟩ := foldl_updMax_spec t.flatten _ none Mv hM
    rw [hm, hM]
    simp only [Option.getD_some]
    refine ⟨?_, ?_, ?_⟩
    · intro e he
      exact ⟨hall1 e he, hall2 e he⟩
    · rcases hmem1 with h1 | h1
      · obtain ⟨e, he, hfe⟩ := h1
        exact ⟨e, he, hfe.symm⟩
      · cases h1
    · rcases hmem2 with h1 | h1
      · obtain ⟨e, he, hfe⟩ := h1
        exact ⟨e, he, hfe.symm⟩
      · cases h1

/-! ## Traversal machinery for flatten -/

/-- Depth of a span in the tree: length of a chain of child links from some
root (roots at depth 0). -/
inductive DepthIs (t : TraceTree) : Span → Nat → Prop
  | root (s : Span) : s ∈ t.roots → DepthIs t s 0
  | child (p s : Span) (n : Nat) :
      DepthIs t p n → s ∈ childrenLookup t p.spanId → DepthIs t s (n + 1)

/-- Reachability along child links. -/
inductive Reaches (t : TraceTree) : Span → Span → Prop
  | refl (s : Span) : Reaches t s s
  | step (s c a : Span) :
      c ∈ childrenLookup t s.spanId → Reaches t c a → Reaches t s a

/-- The spans visited by the walk below a given span, with fuel. -/
def subtreeSpans (t : TraceTree) : Nat → Span → List Span
  | 0, s => [s]
  | b + 1, s => s :: (childrenLookup t s.spanId).flatMap (subtreeSpans t b)

lemma walkFlatten_map_fst (t : TraceTree) (b : Nat) :
    ∀ (spans : List Span) (level : Nat),
      (walkFlatten t (b + 1) spans level).map Prod.fst =
        spans.flatMap (subtreeSpans t b) := by
  induction b with
  | zero =>
      intro spans level
      unfold walkFlatten
      rw [List.map_flatMap]
      apply List.flatMap_congr
      intro s _
      unfold walkFlatten subtreeSpans
      simp
  | succ b ih =>
      intro spans level
      unfold walkFlatten
      rw [List.map_flatMap]
      apply List.flatMap_congr
      intro s _
      unfold subtreeSpans
      simp only [List.map_cons]
      rw [ih]

lemma mem_walkFlatten_top (t : TraceTree) (b : Nat) (spans : List Span)
    (level : Nat) (s : Span) (hs : s ∈ spans) :
    (s, level) ∈ walkFlatten t (b + 1) spans level := by
  unfold walkFlatten
  apply List.mem_flatMap.mpr
  exact ⟨s, hs, List.mem_cons_self _ _⟩

lemma walkFlatten_level_le (t : TraceTree) :
    ∀ (b : Nat) (spans : List Span) (level : Nat) (e : Span × Nat),
      e ∈ walkFlatten t b spans level → level ≤ e.2 := by
  intro b
  induction b with
  | zero =>
      intro spans level e he
      cases he
  | succ b ih =>
      intro spans level e he
      unfold walkFlatten at he
      obtain ⟨s, _, hseg⟩ := List.mem_flatMap.mp he
      rcases List.mem_cons.mp hseg with h1 | h1
      · rw [h1]
      · exact le_trans (Nat.le_succ level) (ih _ _ _ h1)

lemma walkFlatten_depth (t : TraceTree) :
    ∀ (b : Nat) (spans : List Span) (level : Nat),
      (∀ s ∈ spans, DepthIs t s level) →
      ∀ e ∈ walkFlatten t b spans level, DepthIs t e.1 e.2 := by
  intro b
  induction b with
  | zero =>
      intro spans level _ e he
      cases he
  | succ b ih =>
      intro spans level hall e he
      unfold walkFlatten at he
      obtain ⟨s, hs, hseg⟩ := List.mem_flatMap.mp he
      rcases List.mem_cons.mp hseg with h1 | h1
      · rw [h1]
        exact hall s hs
      · apply ih _ _ _ _ h1
        intro c hc
        exact DepthIs.child s c level (hall s hs) hc

lemma walkFlatten_filter_level (t : TraceTree) (b : Nat) (spans : List Span)
    (level : Nat) :
    ((walkFlatten t (b + 1) spans level).filter
        (fun e => e.2 == level)).map Prod.fst = spans := by
  unfold walkFlatten
  induction spans with
  | nil => rfl
  | cons s spans ih =>
      rw [List.flatMap_cons, List.filter_append, List.map_append, ih]
      have hseg : List.filter (fun e => e.2 == level)
          ((s, level) :: walkFlatten t b (childrenLookup t s.spanId) (level + 1)) =
          [(s, level)] := by
        rw [List.filter_cons]
        simp only [beq_self_eq_true, if_pos]
        have : List.filter (fun e => e.2 == level)
            (walkFlatten t b (childrenLookup t s.spanId) (level + 1)) = [] := by
          apply List.filter_eq_nil_iff.mpr
          intro e he
          have hle := walkFlatten_level_le t b _ _ e he
          simp only [beq_iff_eq]
          omega
        rw [this]
      rw [hseg]
      rfl

/-! ## Reachability structure of a built tree -/

lemma resolvedKey_some_elim (m : List (String × Span)) (s : Span) (p : String)
    (h : resolvedKey m s = some p) :
    parentTruthy s = some p ∧ jsMapHas m p = true := by
  cases hpt : parentTruthy s with
  | none =>
      simp only [resolvedKey, hpt] at h
      exact absurd h (by simp)
  | some q =>
      simp only [resolvedKey, hpt] at h
      by_cases hb : jsMapHas m q = true
      · rw [if_pos hb] at h
        obtain rfl := Option.some.inj h
        exact ⟨rfl, hb⟩
      · rw [if_neg hb] at h
        cases h

lemma rank_lt_of_child (td : TraceData) (rank : String → Nat)
    (hr : ∀ s ∈ docSpans td, ∀ p, resolvedKey (spanMap td) s = some p →
      rank p < rank s.spanId)
    (s : Span) (c : Span)
    (hc : c ∈ childrenLookup (TraceTree.build td) s.spanId) :
    rank s.spanId < rank c.spanId := by
  obtain ⟨hcA, hck⟩ := (mem_childrenLookup_iff td s.spanId c).mp hc
  exact hr c (indexSpans_subset td hcA) s.spanId hck

lemma reaches_mem (td : TraceData) (s a : Span)
    (h : Reaches (TraceTree.build td) s a) (hs : s ∈ indexSpans td) :
    a ∈ indexSpans td := by
  induction h with
  | refl => exact hs
  | step x c y hc _ ih =>
      exact ih ((mem_childrenLookup_iff td x.spanId c).mp hc).1

lemma reaches_rank_le (td : TraceData) (rank : String → Nat)
    (hr : ∀ s ∈ docSpans td, ∀ p, resolvedKey (spanMap td) s = some p →
      rank p < rank s.spanId)
    (s a : Span) (h : Reaches (TraceTree.build td) s a) :
    rank s.spanId ≤ rank a.spanId := by
  induction h with
  | refl => exact le_rfl
  | step x c y hc _ ih =>
      exact le_trans (le_of_lt (rank_lt_of_child td rank hr x c hc)) ih

lemma reaches_last_step (td : TraceData) (c a : Span)
    (h : Reaches (TraceTree.build td) c a) :
    c ≠ a → c ∈ indexSpans td →
      ∃ w, w ∈ indexSpans td ∧ a ∈ childrenLookup (TraceTree.build td) w.spanId ∧
        Reaches (TraceTree.build td) c w := by
  induction h with
  | refl => intro hne _; exact absurd rfl hne
  | step x c1 y hc hr1 ih =>
      intro _ hx
      by_cases h1 : c1 = y
      · subst h1
        exact ⟨x, hx, hc, Reaches.refl x⟩
      · have hc1A : c1 ∈ indexSpans td :=
          ((mem_childrenLookup_iff td x.spanId c1).mp hc).1
        obtain ⟨w, hwA, hwc, hww⟩ := ih h1 hc1A
        exact ⟨w, hwA, hwc, Reaches.step x c1 w hc hww⟩

lemma span_eq_of_spanId_eq (td : TraceData) (w w1 : Span)
    (hw : w ∈ indexSpans td) (hw1 : w1 ∈ indexSpans td)
    (h : w.spanId = w1.spanId) : w = w1 :=
  List.inj_on_of_nodup_map (indexSpans_ids_nodup td) hw hw1 h

lemma reaches_child_trans (td : TraceData) (r w a : Span)
    (h : Reaches (TraceTree.build td) r w)
    (ha : a ∈ childrenLookup (TraceTree.build td) w.spanId) :
    Reaches (TraceTree.build td) r a := by
  induction h with
  | refl s => exact Reaches.step s a a ha (Reaches.refl a)
  | step x c y hc _ ih => exact Reaches.step x c a hc (ih ha)

lemma reach_unique (td : TraceData) (rank : String → Nat)
    (hr : ∀ s ∈ docSpans td, ∀ p, resolvedKey (spanMap td) s = some p →
      rank p < rank s.spanId) :
    ∀ (N : Nat) (a c c1 : Span), rank a.spanId < N →
      a ∈ indexSpans td → c ∈ indexSpans td → c1 ∈ indexSpans td →
      resolvedKey (spanMap td) c = resolvedKey (spanMap td) c1 →
      Reaches (TraceTree.build td) c a → Reaches (TraceTree.build td) c1 a →
      c = c1 := by
  intro N
  induction N with
  | zero =>
      intro a c c1 hN
      cases hN
  | succ N ih =>
      intro a c c1 hN haA hcA hc1A hkey hca hc1a
      by_cases hc_eq : c = a
      · by_cases hc1_eq : c1 = a
        · rw [hc_eq, hc1_eq]
        · exfalso
          obtain ⟨w, hwA, hwc, hww⟩ := reaches_last_step td c1 a hc1a hc1_eq hc1A
          have hak : resolvedKey (spanMap td) a = some w.spanId :=
            ((mem_childrenLookup_iff td w.spanId a).mp hwc).2
          have hc1k : resolvedKey (spanMap td) c1 = some w.spanId := by
            rw [← hkey, hc_eq]
            exact hak
          have hc1_child : c1 ∈ childrenLookup (TraceTree.build td) w.spanId :=
            (mem_childrenLookup_iff td w.spanId c1).mpr ⟨hc1A, hc1k⟩
          have h1 : rank w.spanId < rank c1.spanId :=
            rank_lt_of_child td rank hr w c1 hc1_child
          have h2 : rank c1.spanId ≤ rank w.spanId :=
            reaches_rank_le td rank hr c1 w hww
          omega
      · by_cases hc1_eq : c1 = a
        · exfalso
          obtain ⟨w, hwA, hwc, hww⟩ := reaches_last_step td c a hca hc_eq hcA
          have hak : resolvedKey (spanMap td) a = some w.spanId :=
            ((mem_childrenLookup_iff td w.spanId a).mp hwc).2
          have hck : resolvedKey (spanMap td) c = some w.spanId := by
            rw [hkey, hc1_eq]
            exact hak
          have hc_child : c ∈ childrenLookup (TraceTree.build td) w.spanId :=
            (mem_childrenLookup_iff td w.spanId c).mpr ⟨hcA, hck⟩
          have h1 : rank w.spanId < rank c.spanId :=
            rank_lt_of_child td rank hr w c hc_child
          have h2 : rank c.spanId ≤ rank w.spanId :=
            reaches_rank_le td rank hr c w hww
          omega
        · obtain ⟨w, hwA, hwc, hww⟩ := reaches_last_step td c a hca hc_eq hcA
          obtain ⟨w1, hw1A, hw1c, hw1w⟩ := reaches_last_step td c1 a hc1a hc1_eq hc1A
          have hk : resolvedKey (spanMap td) a = some w.spanId :=
            ((mem_childrenLookup_iff td w.spanId a).mp hwc).2
          have hk1 : resolvedKey (spanMap td) a = some w1.spanId :=
            ((mem_childrenLookup_iff td w1.spanId a).mp hw1c).2
          have hid : w.spanId = w1.spanId :=
            Option.some.inj ((hk.symm).trans hk1)
          have hw_eq : w = w1 := span_eq_of_spanId_eq td w w1 hwA hw1A hid
          subst hw_eq
          have hrank_w : rank w.spanId < rank a.spanId :=
            hr a (indexSpans_subset td haA) w.spanId hk
          exact ih w c c1 (by omega) hwA hcA hc1A hkey hww hw1w

lemma root_reaches (td : TraceData) (rank : String → Nat)
    (hr : ∀ s ∈ docSpans td, ∀ p, resolvedKey (spanMap td) s = some p →
      rank p < rank s.spanId) :
    ∀ (N : Nat) (a : Span), rank a.spanId < N → a ∈ indexSpans td →
      ∃ r, r ∈ (TraceTree.build td).roots ∧ Reaches (TraceTree.build td) r a := by
  intro N
  induction N with
  | zero =>
      intro a hN
      cases hN
  | succ N ih =>
      intro a hN haA
      cases hk : resolvedKey (spanMap td) a with
      | none =>
          exact ⟨a, (mem_build_roots_iff td a).mpr ⟨haA, hk⟩, Reaches.refl a⟩
      | some p =>
          obtain ⟨hpt, hb⟩ := resolvedKey_some_elim (spanMap td) a p hk
          obtain ⟨w, hwA, hwid⟩ := (jsMapHas_spanMap_iff td p).mp hb
          have hachild : a ∈ childrenLookup (TraceTree.build td) w.spanId := by
            apply (mem_childrenLookup_iff td w.spanId a).mpr
            rw [hwid]
            exact ⟨haA, hk⟩
          have hrank_w : rank w.spanId < rank a.spanId := by
            rw [hwid]
            exact hr a (indexSpans_subset td haA) p hk
          obtain ⟨r, hroot, hreach⟩ := ih w (by omega) hwA
          exact ⟨r, hroot, reaches_child_trans td r w a hreach hachild⟩

lemma root_unique (td : TraceData) (rank : String → Nat)
    (hr : ∀ s ∈ docSpans td, ∀ p, resolvedKey (spanMap td) s = some p →
      rank p < rank s.spanId)
    (a r r1 : Span) (haA : a ∈ indexSpans td)
    (hroot : r ∈ (TraceTree.build td).roots)
    (hroot1 : r1 ∈ (TraceTree.build td).roots)
    (hra : Reaches (TraceTree.build td) r a)
    (hr1a : Reaches (TraceTree.build td) r1 a) : r = r1 := by
  obtain ⟨hrA, hrk⟩ := (mem_build_roots_iff td r).mp hroot
  obtain ⟨hr1A, hr1k⟩ := (mem_build_roots_iff td r1).mp hroot1
  exact reach_unique td rank hr (rank a.spanId + 1) a r r1 (by omega) haA hrA hr1A
    (hrk.trans hr1k.symm) hra hr1a

/-! ## Counting emissions of the walk -/

lemma sum_map_eq_zero_of {γ : Type} (l : List γ) (f : γ → Nat)
    (h : ∀ x ∈ l, f x = 0) : (l.map f).sum = 0 := by
  induction l with
  | nil => rfl
  | cons x l ih =>
      rw [List.map_cons, List.sum_cons, h x (List.mem_cons_self x l),
        ih (fun y hy => h y (List.mem_cons_of_mem x hy))]

lemma sum_map_eq_one_of {γ : Type} [DecidableEq γ] (l : List γ) (f : γ → Nat)
    (hnd : l.Nodup) (x0 : γ) (hx0 : x0 ∈ l) (hf0 : f x0 = 1)
    (hrest : ∀ x ∈ l, x ≠ x0 → f x = 0) : (l.map f).sum = 1 := by
  induction l with
  | nil => cases hx0
  | cons y l ih =>
      rw [List.map_cons, List.sum_cons]
      rw [List.nodup_cons] at hnd
      rcases List.mem_cons.mp hx0 with h1 | h1
      · subst h1
        rw [hf0]
        rw [sum_map_eq_zero_of l f]
        · intro x hx
          apply hrest x (List.mem_cons_of_mem x0 hx)
          intro hc
          subst hc
          exact hnd.1 hx
      · rw [hrest y (List.mem_cons_self y l) (fun hc => hnd.1 (hc ▸ h1))]
        rw [ih hnd.2 h1 (fun x hx hne => hrest x (List.mem_cons_of_mem y hx) hne)]

/-- Number of index spans ranked strictly above s, plus one: a measure that
strictly decreases from parent to child. -/
def rankMeasure (td : TraceData) (rank : String → Nat) (s : Span) : Nat :=
  ((indexSpans td).filter (fun t => rank s.spanId < rank t.spanId)).length + 1

lemma rankMeasure_le (td : TraceData) (rank : String → Nat) (s : Span) :
    rankMeasure td rank s ≤ (indexSpans td).length + 1 := by
  unfold rankMeasure
  have := List.length_filter_le (fun t => rank s.spanId < rank t.spanId) (indexSpans td)
  omega

lemma rankMeasure_child_lt (td : TraceData) (rank : String → Nat)
    (hr : ∀ s ∈ docSpans td, ∀ p, resolvedKey (spanMap td) s = some p →
      rank p < rank s.spanId)
    (s c : Span) (hc : c ∈ childrenLookup (TraceTree.build td) s.spanId) :
    rankMeasure td rank c < rankMeasure td rank s := by
  have hlt : rank s.spanId < rank c.spanId := rank_lt_of_child td rank hr s c hc
  have hcA : c ∈ indexSpans td := ((mem_childrenLookup_iff td s.spanId c).mp hc).1
  unfold rankMeasure
  have hsub : ((indexSpans td).filter
      (fun t => rank c.spanId < rank t.spanId)).Sublist
      ((indexSpans td).filter (fun t => rank s.spanId < rank t.spanId)) := by
    apply List.monotone_filter_right
    intro a ha
    simp only [decide_eq_true_eq] at ha ⊢
    omega
  have hle := hsub.length_le
  rcases Nat.lt_or_ge (((indexSpans td).filter
      (fun t => rank c.spanId < rank t.spanId)).length)
      (((indexSpans td).filter (fun t => rank s.spanId < rank t.spanId)).length)
      with h1 | h1
  · omega
  · exfalso
    have heq := hsub.eq_of_length (le_antisymm hle h1)
    have hmem : c ∈ (indexSpans td).filter
        (fun t => rank s.spanId < rank t.spanId) := by
      apply List.mem_filter.mpr
      exact ⟨hcA, by simpa using hlt⟩
    rw [← heq] at hmem
    have := (List.mem_filter.mp hmem).2
    simp only [decide_eq_true_eq] at this
    omega

open Classical in
lemma subtreeSpans_count (td : TraceData) (rank : String → Nat)
    (hr : ∀ s ∈ docSpans td, ∀ p, resolvedKey (spanMap td) s = some p →
      rank p < rank s.spanId) :
    ∀ (b : Nat) (s : Span), s ∈ indexSpans td → rankMeasure td rank s ≤ b →
      ∀ a : Span, (subtreeSpans (TraceTree.build td) b s).count a =
        if Reaches (TraceTree.build td) s a then 1 else 0 := by
  intro b
  induction b with
  | zero =>
      intro s _ hm
      exfalso
      unfold rankMeasure at hm
      omega
  | succ b ih =>
      intro s hsA hm a
      unfold subtreeSpans
      rw [List.count_cons, List.count_flatMap]
      have hterm : ∀ c ∈ childrenLookup (TraceTree.build td) s.spanId,
          (List.count a ∘ subtreeSpans (TraceTree.build td) b) c =
            if Reaches (TraceTree.build td) c a then 1 else 0 := by
        intro c hc
        have hcA : c ∈ indexSpans td :=
          ((mem_childrenLookup_iff td s.spanId c).mp hc).1
        have hcm : rankMeasure td rank c ≤ b := by
          have := rankMeasure_child_lt td rank hr s c hc
          omega
        exact ih c hcA hcm a
      by_cases hsa : Reaches (TraceTree.build td) s a
      · rw [if_pos hsa]
        by_cases heq : s = a
        · subst heq
          have hsum : ((childrenLookup (TraceTree.build td) s.spanId).map
              (List.count s ∘ subtreeSpans (TraceTree.build td) b)).sum = 0 := by
            apply sum_map_eq_zero_of
            intro c hc
            rw [hterm c hc]
            rw [if_neg]
            intro hreach
            have h1 := reaches_rank_le td rank hr c s hreach
            have h2 := rank_lt_of_child td rank hr s c hc
            omega
          rw [hsum]
          simp
        · cases hsa with
          | refl => exact absurd rfl heq
          | step s c0 a hc0 hreach0 =>
              have hsum : ((childrenLookup (TraceTree.build td) s.spanId).map
                  (List.count a ∘ subtreeSpans (TraceTree.build td) b)).sum = 1 := by
                apply sum_map_eq_one_of _ _
                  (childrenLookup_nodup td s.spanId) c0 hc0
                · rw [hterm c0 hc0, if_pos hreach0]
                · intro c hc hne
                  rw [hterm c hc, if_neg]
                  intro hreach
                  apply hne
                  have hcA : c ∈ indexSpans td :=
                    ((mem_childrenLookup_iff td s.spanId c).mp hc).1
                  have hc0A : c0 ∈ indexSpans td :=
                    ((mem_childrenLookup_iff td s.spanId c0).mp hc0).1
                  have haA : a ∈ indexSpans td := reaches_mem td c a hreach hcA
                  apply reach_unique td rank hr (rank a.spanId + 1) a c c0
                    (by omega) haA hcA hc0A
                  · rw [((mem_childrenLookup_iff td s.spanId c).mp hc).2,
                      ((mem_childrenLookup_iff td s.spanId c0).mp hc0).2]
                  · exact hreach
                  · exact hreach0
              rw [hsum, if_neg (show ¬ (s == a) = true by simpa using heq)]
      · rw [if_neg hsa]
        have heq : ¬ s = a := fun hc => hsa (hc ▸ Reaches.refl s)
        have hsum : ((childrenLookup (TraceTree.build td) s.spanId).map
            (List.count a ∘ subtreeSpans (TraceTree.build td) b)).sum = 0 := by
          apply sum_map_eq_zero_of
          intro c hc
          rw [hterm c hc, if_neg]
          intro hreach
          exact hsa (Reaches.step s c a hc hreach)
        rw [hsum, if_neg (show ¬ (s == a) = true by simpa using heq)]

lemma length_indexSpans_le_spanCount (td : TraceData) :
    (indexSpans td).length ≤ spanCount (TraceTree.build td) := by
  have hroots : (TraceTree.build td).roots.length =
      ((indexSpans td).filter
        (fun s => (resolvedKey (spanMap td) s).isNone)).length := by
    rw [build_roots]
    exact (sortByStart_perm _).length_eq
  have hflat : ((TraceTree.build td).childrenOf.map (fun kv => kv.2.length)).sum =
      ((TraceTree.build td).childrenOf.flatMap (fun kv => kv.2)).length := by
    rw [List.length_flatMap]
    rfl
  have hsubset : ∀ s ∈ (indexSpans td).filter
      (fun s => !(resolvedKey (spanMap td) s).isNone),
      s ∈ (TraceTree.build td).childrenOf.flatMap (fun kv => kv.2) := by
    intro s hs
    obtain ⟨hsA, hkey⟩ := List.mem_filter.mp hs
    have hsome : (resolvedKey (spanMap td) s).isSome = true := by
      cases hk : resolvedKey (spanMap td) s with
      | none => rw [hk] at hkey; simp at hkey
      | some p => rfl
    obtain ⟨p, hp⟩ := Option.isSome_iff_exists.mp hsome
    have hmem : s ∈ childrenLookup (TraceTree.build td) p :=
      (mem_childrenLookup_iff td p s).mpr ⟨hsA, hp⟩
    unfold childrenLookup at hmem
    cases hget : jsMapGet (TraceTree.build td).childrenOf p with
    | none =>
        rw [hget] at hmem
        cases hmem
    | some L =>
        rw [hget] at hmem
        simp only [Option.getD_some] at hmem
        apply List.mem_flatMap.mpr
        exact ⟨(p, L), (mem_of_jsMapGet_eq_some _ _ _ hget).1, hmem⟩
  have hlen2 : ((indexSpans td).filter
      (fun s => !(resolvedKey (spanMap td) s).isNone)).length ≤
      ((TraceTree.build td).childrenOf.flatMap (fun kv => kv.2)).length := by
    apply List.Subperm.length_le
    apply List.subperm_of_subset
    · exact (indexSpans_nodup td).filter _
    · exact hsubset
  have hsplit : ((indexSpans td).filter
        (fun s => (resolvedKey (spanMap td) s).isNone)).length +
      ((indexSpans td).filter
        (fun s => !(resolvedKey (spanMap td) s).isNone)).length =
      (indexSpans td).length := by
    have := (List.filter_append_perm
      (fun s => (resolvedKey (spanMap td) s).isNone) (indexSpans td)).length_eq
    simpa using this
  unfold spanCount
  omega

open Classical in
lemma flatten_count (td : TraceData) (rank : String → Nat)
    (hr : ∀ s ∈ docSpans td, ∀ p, resolvedKey (spanMap td) s = some p →
      rank p < rank s.spanId) (a : Span) :
    (((TraceTree.build td).flatten).map Prod.fst).count a =
      (indexSpans td).count a := by
  have hmap : ((TraceTree.build td).flatten).map Prod.fst =
      (TraceTree.build td).roots.flatMap
        (subtreeSpans (TraceTree.build td) (spanCount (TraceTree.build td) + 1)) := by
    unfold TraceTree.flatten
    exact walkFlatten_map_fst (TraceTree.build td) (spanCount (TraceTree.build td) + 1)
      (TraceTree.build td).roots 0
  rw [hmap, List.count_flatMap]
  have hterm : ∀ r ∈ (TraceTree.build td).roots,
      (List.count a ∘ subtreeSpans (TraceTree.build td)
        (spanCount (TraceTree.build td) + 1)) r =
        if Reaches (TraceTree.build td) r a then 1 else 0 := by
    intro r hroot
    have hrA : r ∈ indexSpans td := ((mem_build_roots_iff td r).mp hroot).1
    apply subtreeSpans_count td rank hr _ r hrA
    have h1 := rankMeasure_le td rank r
    have h2 := length_indexSpans_le_spanCount td
    omega
  by_cases haA : a ∈ indexSpans td
  · rw [List.count_eq_one_of_mem (indexSpans_nodup td) haA]
    obtain ⟨r0, hr0, hreach0⟩ :=
      root_reaches td rank hr (rank a.spanId + 1) a (by omega) haA
    apply sum_map_eq_one_of _ _ (build_roots_nodup td) r0 hr0
    · rw [hterm r0 hr0, if_pos hreach0]
    · intro r hroot hne
      rw [hterm r hroot, if_neg]
      intro hreach
      exact hne (root_unique td rank hr a r r0 haA hroot hr0 hreach hreach0)
  · rw [List.count_eq_zero_of_not_mem haA]
    apply sum_map_eq_zero_of
    intro r hroot
    rw [hterm r hroot, if_neg]
    intro hreach
    exact haA (reaches_mem td r a hreach ((mem_build_roots_iff td r).mp hroot).1)

/-- Claim C10: for a document with globally distinct span identifiers whose
parent references are acyclic among the document's own spans — witnessed by
a rank function that strictly decreases from every span to its resolved
parent — flatten(build(document)) emits every document span exactly once:
the flattened sequence is a permutation of the document's span list. -/
theorem flatten_complete (td : TraceData) (rank : String → Nat)
    (hnodup : ((docSpans td).map (fun s => s.spanId)).Nodup)
    (hrank : ∀ s ∈ docSpans td, ∀ p, resolvedKey (spanMap td) s = some p →
      rank p < rank s.spanId) :
    List.Perm (((TraceTree.build td).flatten).map Prod.fst) (docSpans td) := by
  rw [← indexSpans_of_nodup td hnodup]
  apply List.perm_iff_count.mpr
  intro a
  exact flatten_count td rank hrank a

/-! ## Pre-order structure of the walk (claim C3) -/

lemma walkFlatten_decomp (t : TraceTree) :
    ∀ (fuel : Nat) (spans : List Span) (level : Nat) (s : Span) (l : Nat),
      (s, l) ∈ walkFlatten t fuel spans level →
      level ≤ l ∧ ∃ pre post fuel2, fuel2 + (l - level) + 1 = fuel ∧
        walkFlatten t fuel spans level =
          pre ++ (s, l) ::
            (walkFlatten t fuel2 (childrenLookup t s.spanId) (l + 1) ++ post) := by
  intro fuel
  induction fuel with
  | zero =>
      intro spans level s l he
      cases he
  | succ fuel ih =>
      intro spans level s l he
      obtain ⟨x, hx, hseg⟩ := List.mem_flatMap.mp he
      obtain ⟨u, v, huv⟩ := List.append_of_mem hx
      rcases List.mem_cons.mp hseg with h1 | h1
      · obtain ⟨rfl, rfl⟩ := Prod.mk.injEq .. ▸ h1
        have hl : (l - l) = 0 := Nat.sub_self l
        refine ⟨le_rfl,
          (u.flatMap (fun y => (y, l) ::
            walkFlatten t fuel (childrenLookup t y.spanId) (l + 1))),
          (v.flatMap (fun y => (y, l) ::
            walkFlatten t fuel (childrenLookup t y.spanId) (l + 1))),
          fuel, by omega, ?_⟩
        conv =>
          left
          rw [show walkFlatten t (fuel + 1) spans l =
            spans.flatMap (fun y => (y, l) ::
              walkFlatten t fuel (childrenLookup t y.spanId) (l + 1)) from rfl]
        rw [huv, List.flatMap_append, List.flatMap_cons]
        simp [List.append_assoc]
      · obtain ⟨hle, ipre, ipost, fuel2, hfuel, heq⟩ :=
          ih (childrenLookup t x.spanId) (level + 1) s l h1
        refine ⟨by omega,
          (u.flatMap (fun y => (y, level) ::
            walkFlatten t fuel (childrenLookup t y.spanId) (level + 1))) ++
            (x, level) :: ipre,
          ipost ++ (v.flatMap (fun y => (y, level) ::
            walkFlatten t fuel (childrenLookup t y.spanId) (level + 1))),
          fuel2, by omega, ?_⟩
        conv =>
          left
          rw [show walkFlatten t (fuel + 1) spans level =
            spans.flatMap (fun y => (y, level) ::
              walkFlatten t fuel (childrenLookup t y.spanId) (level + 1)) from rfl]
        rw [huv, List.flatMap_append, List.flatMap_cons, heq]
        simp [List.append_assoc]

/-- A chain of the built tree, deepest span first: each element is stored
in the child list of its successor, and the last element is a root. -/
inductive RootedChain (t : TraceTree) : List Span → Prop
  | root (r : Span) : r ∈ t.roots → RootedChain t [r]
  | child (c p : Span) (rest : List Span) :
      RootedChain t (p :: rest) → c ∈ childrenLookup t p.spanId →
      RootedChain t (c :: p :: rest)

lemma rootedChain_mem (td : TraceData) (cs : List Span)
    (h : RootedChain (TraceTree.build td) cs) :
    ∀ x ∈ cs, x ∈ indexSpans td := by
  induction h with
  | root r hr =>
      intro x hx
      rw [List.mem_singleton.mp hx]
      exact ((mem_build_roots_iff td r).mp hr).1
  | child c p rest hrc hc ih =>
      intro x hx
      rcases List.mem_cons.mp hx with h1 | h1
      · rw [h1]
        exact ((mem_childrenLookup_iff td p.spanId c).mp hc).1
      · exact ih x h1

lemma rootedChain_determined (td : TraceData) (cs : List Span)
    (h : RootedChain (TraceTree.build td) cs) :
    ∀ cs1, RootedChain (TraceTree.build td) cs1 →
      cs.head? = cs1.head? → cs = cs1 := by
  induction h with
  | root r hr =>
      intro cs1 h1 hh
      cases h1 with
      | root r1 hr1 =>
          have hre : r = r1 := by simpa using hh
          rw [hre]
      | child c1 p1 rest1 hrc1 hc1 =>
          have hre : r = c1 := by simpa using hh
          have hk : resolvedKey (spanMap td) r = none :=
            ((mem_build_roots_iff td r).mp hr).2
          have hk1 : resolvedKey (spanMap td) c1 = some p1.spanId :=
            ((mem_childrenLookup_iff td p1.spanId c1).mp hc1).2
          rw [hre, hk1] at hk
          exact Option.noConfusion hk
  | child c p rest hrc hc ih =>
      intro cs1 h1 hh
      cases h1 with
      | root r1 hr1 =>
          have hre : c = r1 := by simpa using hh
          have hk : resolvedKey (spanMap td) r1 = none :=
            ((mem_build_roots_iff td r1).mp hr1).2
          have hk1 : resolvedKey (spanMap td) c = some p.spanId :=
            ((mem_childrenLookup_iff td p.spanId c).mp hc).2
          rw [hre] at hk1
          rw [hk1] at hk
          exact Option.noConfusion hk
      | child c1 p1 rest1 hrc1 hc1 =>
          have hce : c = c1 := by simpa using hh
          have hk : resolvedKey (spanMap td) c = some p.spanId :=
            ((mem_childrenLookup_iff td p.spanId c).mp hc).2
          have hk1 : resolvedKey (spanMap td) c1 = some p1.spanId :=
            ((mem_childrenLookup_iff td p1.spanId c1).mp hc1).2
          rw [← hce] at hk1
          rw [hk] at hk1
          have hpid : p.spanId = p1.spanId := Option.some.inj hk1
          have hpA : p ∈ indexSpans td :=
            rootedChain_mem td (p :: rest) hrc p (List.mem_cons_self _ _)
          have hp1A : p1 ∈ indexSpans td :=
            rootedChain_mem td (p1 :: rest1) hrc1 p1 (List.mem_cons_self _ _)
          have hpe : p = p1 := span_eq_of_spanId_eq td p p1 hpA hp1A hpid
          have htail : p :: rest = p1 :: rest1 := by
            apply ih (p1 :: rest1) hrc1
            rw [hpe]
            rfl
          rw [hce, htail]

lemma rootedChain_mem_suffix (td : TraceData) (cs : List Span)
    (h : RootedChain (TraceTree.build td) cs) :
    ∀ c ∈ cs, ∃ u suf, cs = u ++ suf ∧ suf.head? = some c ∧
      RootedChain (TraceTree.build td) suf := by
  induction h with
  | root r hr =>
      intro c hc
      have hce : c = r := List.mem_singleton.mp hc
      exact ⟨[], [r], rfl, by rw [hce]; rfl, RootedChain.root r hr⟩

  | child c0 p rest hrc hc0 ih =>
      intro c hcmem
      rcases List.mem_cons.mp hcmem with h1 | h1
      · exact ⟨[], c0 :: p :: rest, rfl, by rw [h1]; rfl,
          RootedChain.child c0 p rest hrc hc0⟩
      · obtain ⟨u, suf, hsplit, hhead, hrc2⟩ := ih c h1
        exact ⟨c0 :: u, suf, by rw [List.cons_append, ← hsplit], hhead, hrc2⟩

lemma rootedChain_nodup (td : TraceData) (cs : List Span)
    (h : RootedChain (TraceTree.build td) cs) : cs.Nodup := by
  induction h with
  | root r hr => exact List.nodup_singleton r
  | child c p rest hrc hc ih =>
      rw [List.nodup_cons]
      refine ⟨?_, ih⟩
      intro hmem
      obtain ⟨u, suf, hsplit, hhead, hrc2⟩ :=
        rootedChain_mem_suffix td (p :: rest) hrc c hmem
      have hdet : c :: p :: rest = suf :=
        rootedChain_determined td (c :: p :: rest)
          (RootedChain.child c p rest hrc hc) suf hrc2 (by rw [hhead]; rfl)
      have hlen : (p :: rest).length = u.length + suf.length := by
        rw [hsplit, List.length_append]
      rw [← hdet] at hlen
      simp [List.length_cons] at hlen
      omega

lemma depthIs_rootedChain (td : TraceData) (s : Span) (l : Nat)
    (h : DepthIs (TraceTree.build td) s l) :
    ∃ cs : List Span, RootedChain (TraceTree.build td) cs ∧
      cs.head? = some s ∧ cs.length = l + 1 := by
  induction h with
  | root r hroot =>
      exact ⟨[r], RootedChain.root r hroot, rfl, rfl⟩
  | child p c n hd hc ih =>
      obtain ⟨cs, hrc, hhead, hlen⟩ := ih
      cases cs with
      | nil => cases hhead
      | cons hd0 rest =>
          have hhd : hd0 = p := by simpa using hhead
          rw [← hhd] at hc
          exact ⟨c :: hd0 :: rest, RootedChain.child c hd0 rest hrc hc,
            rfl, by simpa using hlen⟩

lemma depthIs_card (td : TraceData) (s : Span) (l : Nat)
    (h : DepthIs (TraceTree.build td) s l) :
    l + 1 ≤ (indexSpans td).length := by
  obtain ⟨cs, hrc, _, hlen⟩ := depthIs_rootedChain td s l h
  have hnd : cs.Nodup := rootedChain_nodup td cs hrc
  have hsub : cs ⊆ indexSpans td := rootedChain_mem td cs hrc
  have := (List.subperm_of_subset hnd hsub).length_le
  omega

lemma flatten_segment (td : TraceData) (s : Span) (l : Nat)
    (he : (s, l) ∈ (TraceTree.build td).flatten) :
    ∃ pre post fuel3,
      (TraceTree.build td).flatten =
        pre ++ (s, l) :: (walkFlatten (TraceTree.build td) (fuel3 + 1)
          (childrenLookup (TraceTree.build td) s.spanId) (l + 1) ++ post) := by
  obtain ⟨h0, pre, post, fuel2, hfuel, heq⟩ :=
    walkFlatten_decomp (TraceTree.build td) (spanCount (TraceTree.build td) + 2)
      (TraceTree.build td).roots 0 s l he
  have hdepth : DepthIs (TraceTree.build td) s l := by
    apply walkFlatten_depth (TraceTree.build td)
      (spanCount (TraceTree.build td) + 2) (TraceTree.build td).roots 0 _ (s, l) he
    intro r hroot
    exact DepthIs.root r hroot
  have hlA : l + 1 ≤ (indexSpans td).length := depthIs_card td s l hdepth
  have hcount := length_indexSpans_le_spanCount td
  obtain ⟨fuel3, hf3⟩ : ∃ k, fuel2 = k + 1 := ⟨fuel2 - 1, by omega⟩
  rw [hf3] at heq
  have hfl : (TraceTree.build td).flatten =
      walkFlatten (TraceTree.build td) (spanCount (TraceTree.build td) + 2)
        (TraceTree.build td).roots 0 := rfl
  exact ⟨pre, post, fuel3, by rw [hfl, heq]⟩

lemma walkFlatten_sibling_pair (t : TraceTree) (b : Nat) (u v : List Span)
    (c1 c2 : Span) (level : Nat) (hc2 : c2 ∈ v) :
    List.Sublist [(c1, level), (c2, level)]
      (walkFlatten t (b + 1) (u ++ c1 :: v) level) := by
  have hmem2 : (c2, level) ∈ walkFlatten t (b + 1) v level :=
    mem_walkFlatten_top t b v level c2 hc2
  have h1 : List.Sublist [(c2, level)]
      (v.flatMap (fun y => (y, level) ::
        walkFlatten t b (childrenLookup t y.spanId) (level + 1))) :=
    List.singleton_sublist.mpr hmem2
  have h2 := h1.trans (List.sublist_append_right
    (walkFlatten t b (childrenLookup t c1.spanId) (level + 1)) _)
  have h3 := h2.cons₂ (c1, level)
  have h4 := h3.trans (List.sublist_append_right
    (u.flatMap (fun y => (y, level) ::
      walkFlatten t b (childrenLookup t y.spanId) (level + 1))) _)
  have hw : walkFlatten t (b + 1) (u ++ c1 :: v) level =
      (u ++ c1 :: v).flatMap (fun y => (y, level) ::
        walkFlatten t b (childrenLookup t y.spanId) (level + 1)) := rfl
  rw [hw, List.flatMap_append, List.flatMap_cons, List.cons_append]
  exact h4

/-- Claim C3: flatten is a pre-order depth-first walk.  (1) The level-0
entries of the flattened sequence are exactly the roots in stored order.
(2) Every emitted pair (span, level) has level equal to the span's depth in
the tree: there is a chain of child links of that length from a root (roots
at level 0), i.e. the walk recurses into childrenOf[span.id] at level + 1.
(3) Each span is emitted before any of its children: for every emitted pair
(s, l) and every stored child c of s, the two-element sequence
[(s, l), (c, l + 1)] is a subsequence of the flattened output, so c is
emitted after s at level l + 1.  (4) The walk recurses into
childrenOf[span.id] in stored order: whenever the stored child list of an
emitted span s splits as u ++ c1 :: v with c2 ∈ v (c1 precedes c2 in the
stored list), [(s, l), (c1, l + 1), (c2, l + 1)] is a subsequence of the
flattened output.  All four parts hold for every document: rooted chains of
a built tree are duplicate-free (each span has at most one resolved parent
and roots have none), so the walk's fuel never runs out below a root. -/
theorem flatten_preorder (td : TraceData) :
    ((((TraceTree.build td).flatten).filter (fun e => e.2 == 0)).map Prod.fst =
      (TraceTree.build td).roots) ∧
    (∀ e ∈ (TraceTree.build td).flatten, DepthIs (TraceTree.build td) e.1 e.2) ∧
    (∀ s l c, (s, l) ∈ (TraceTree.build td).flatten →
      c ∈ childrenLookup (TraceTree.build td) s.spanId →
      List.Sublist [(s, l), (c, l + 1)] ((TraceTree.build td).flatten)) ∧
    (∀ s l c1 c2 u v, (s, l) ∈ (TraceTree.build td).flatten →
      childrenLookup (TraceTree.build td) s.spanId = u ++ c1 :: v → c2 ∈ v →
      List.Sublist [(s, l), (c1, l + 1), (c2, l + 1)]
        ((TraceTree.build td).flatten)) := by
  refine ⟨?_, ?_, ?_, ?_⟩
  · exact walkFlatten_filter_level (TraceTree.build td)
      (spanCount (TraceTree.build td) + 1) (TraceTree.build td).roots 0
  · intro e he
    apply walkFlatten_depth (TraceTree.build td) (spanCount (TraceTree.build td) + 2)
      (TraceTree.build td).roots 0 _ e he
    intro r hroot
    exact DepthIs.root r hroot
  · intro s l c he hc
    obtain ⟨pre, post, fuel3, heq⟩ := flatten_segment td s l he
    have hc_mem : (c, l + 1) ∈ walkFlatten (TraceTree.build td) (fuel3 + 1)
        (childrenLookup (TraceTree.build td) s.spanId) (l + 1) :=
      mem_walkFlatten_top (TraceTree.build td) fuel3 _ (l + 1) c hc
    have h1 := List.singleton_sublist.mpr hc_mem
    have h2 := h1.trans (List.sublist_append_left _ post)
    have h3 := h2.cons₂ (s, l)
    have h4 := h3.trans (List.sublist_append_right pre _)
    rw [heq]
    exact h4
  · intro s l c1 c2 u v he hsplit hc2
    obtain ⟨pre, post, fuel3, heq⟩ := flatten_segment td s l he
    rw [hsplit] at heq
    have h1 := walkFlatten_sibling_pair (TraceTree.build td) fuel3 u v c1 c2
      (l + 1) hc2
    have h2 := h1.trans (List.sublist_append_left _ post)
    have h3 := h2.cons₂ (s, l)
    have h4 := h3.trans (List.sublist_append_right pre _)
    rw [heq]
    exact h4

/-! ## Concrete example documents for witnesses -/

/-- Root span of the example trace (service svc-a). -/
def spanA : Span :=
  { spanId := "a", parentSpanId := none,
    startTimeUnixNano := 1000000000, endTimeUnixNano := 2000000000 }

/-- Child of spanA. -/
def spanB : Span :=
  { spanId := "b", parentSpanId := some "a",
    startTimeUnixNano := 1200000000, endTimeUnixNano := 1800000000 }

/-- Span with a dangling parent reference "z". -/
def spanC : Span :=
  { spanId := "c", parentSpanId := some "z",
    startTimeUnixNano := 900000000, endTimeUnixNano := 1500000000 }

/-- Example document: two resource groups, a dangling parent, one child. -/
def doc1 : TraceData :=
  { resourceSpans := [
      { resource := { attributes := [
          { key := "service.name", value := { stringValue := some "svc-a" } }] },
        scopeSpans := [{ spans := [spanA, spanB] }] },
      { resource := { attributes := [] },
        scopeSpans := [{ spans := [spanC] }] }] }

/-- Rank function witnessing acyclicity of doc1: the only resolved parent
link goes from "b" up to "a". -/
def doc1Rank (id : String) : Nat := if id = "a" then 0 else 1

lemma doc1Rank_ok : ∀ s ∈ docSpans doc1, ∀ p,
    resolvedKey (spanMap doc1) s = some p → doc1Rank p < doc1Rank s.spanId := by
  intro s hs p hp
  have hd : docSpans doc1 = [spanA, spanB, spanC] := rfl
  rw [hd] at hs
  simp only [List.mem_cons, List.not_mem_nil, or_false] at hs
  rcases hs with rfl | rfl | rfl
  · have hcomp : resolvedKey (spanMap doc1) spanA = none := by decide
    rw [hcomp] at hp
    exact Option.noConfusion hp
  · have hcomp : resolvedKey (spanMap doc1) spanB = some "a" := by decide
    rw [hcomp] at hp
    obtain rfl := Option.some.inj hp
    decide
  · have hcomp : resolvedKey (spanMap doc1) spanC = none := by decide
    rw [hcomp] at hp
    exact Option.noConfusion hp

/-- First span with id "d" (overwritten by spanD2). -/
def spanD1 : Span :=
  { spanId := "d", parentSpanId := none,
    startTimeUnixNano := 10, endTimeUnixNano := 20 }

/-- Second span with the duplicate id "d" (the survivor). -/
def spanD2 : Span :=
  { spanId := "d", parentSpanId := none,
    startTimeUnixNano := 30, endTimeUnixNano := 40 }

/-- Child referring to the duplicated id "d". -/
def spanE : Span :=
  { spanId := "e", parentSpanId := some "d",
    startTimeUnixNano := 35, endTimeUnixNano := 38 }

/-- Span with a dangling parent reference "zz". -/
def spanF : Span :=
  { spanId := "f", parentSpanId := some "zz",
    startTimeUnixNano := 5, endTimeUnixNano := 6 }

/-- Document with a duplicate span id and a dangling parent. -/
def doc2 : TraceData :=
  { resourceSpans := [
      { resource := { attributes := [] },
        scopeSpans := [{ spans := [spanD1, spanE, spanD2, spanF] }] }] }

/-- Root span of the sibling-order example trace. -/
def spanP : Span :=
  { spanId := "p", parentSpanId := none,
    startTimeUnixNano := 100, endTimeUnixNano := 900 }

/-- First stored child of spanP (earlier start time). -/
def spanQ : Span :=
  { spanId := "q", parentSpanId := some "p",
    startTimeUnixNano := 200, endTimeUnixNano := 400 }

/-- Second stored child of spanP (later start time). -/
def spanR : Span :=
  { spanId := "r", parentSpanId := some "p",
    startTimeUnixNano := 500, endTimeUnixNano := 800 }

/-- Document with one root and two sibling children, for the pre-order
witness. -/
def doc3 : TraceData :=
  { resourceSpans := [
      { resource := { attributes := [] },
        scopeSpans := [{ spans := [spanP, spanQ, spanR] }] }] }

/-! ## Witnesses -/

/-- Witness for build_root_child_classification at doc1: spanB (truthy
parent "a" resolving to the indexed spanA) lands in the child list of "a"
and not in the roots. -/
theorem build_root_child_classification_witness :
    spanB ∈ indexSpans doc1 ∧
    spanB ∈ childrenLookup (TraceTree.build doc1) "a" ∧
    spanB ∉ (TraceTree.build doc1).roots := by
  have h := (build_root_child_classification doc1 spanB (by decide)).2 "a"
    (by decide) ⟨spanA, by decide, by decide⟩
  exact ⟨by decide, h.1, h.2.1⟩

/-- Witness for flatten_preorder at doc3: the root spanP is emitted at
level 0, its stored child list is [spanQ, spanR], and the walk emits spanP
before spanQ before spanR — the two siblings in stored order at level 1. -/
theorem flatten_preorder_witness :
    (spanP, 0) ∈ (TraceTree.build doc3).flatten ∧
    childrenLookup (TraceTree.build doc3) spanP.spanId = [] ++ spanQ :: [spanR] ∧
    spanR ∈ [spanR] ∧
    List.Sublist [(spanP, 0), (spanQ, 1), (spanR, 1)]
      ((TraceTree.build doc3).flatten) := by
  refine ⟨by decide, by decide, by decide, ?_⟩
  exact (flatten_preorder doc3).2.2.2 spanP 0 spanQ spanR [] [spanR]
    (by decide) (by decide) (by decide)

/-- Witness for getTimeRange_bounds at the tree built from doc1 (nonempty):
its minimum is attained by some span's converted start time. -/
theorem getTimeRange_bounds_witness :
    (TraceTree.build doc1).flatten ≠ [] ∧
    (∃ e ∈ (TraceTree.build doc1).flatten,
      (TraceTree.build doc1).getTimeRange.1 = nanoToMilli e.1.startTimeUnixNano) := by
  refine ⟨by decide, ?_⟩
  exact ((getTimeRange_bounds (TraceTree.build doc1)).2 (by decide)).2.1

/-- Witness for build_referential_anomalies at doc2: the duplicate id "d"
resolves to the later spanD2, the tree span spanE is its index value, and
the dangling spanF becomes a root. -/
theorem build_referential_anomalies_witness :
    jsMapGet (spanMap doc2) "d" = some spanD2 ∧
    jsMapGet (spanMap doc2) spanE.spanId = some spanE ∧
    spanF ∈ (TraceTree.build doc2).roots := by
  refine ⟨?_, ?_, ?_⟩
  · have h := (build_referential_anomalies doc2).1 "d"
    rw [h]
    decide
  · exact (build_referential_anomalies doc2).2.1 spanE (by decide)
  · exact (build_referential_anomalies doc2).2.2 spanF (by decide) "zz"
      (by decide) (by decide)

/-- Witness for flatten_complete at doc1: the flattened spans are a
permutation of the three document spans. -/
theorem flatten_complete_witness :
    ((docSpans doc1).map (fun s => s.spanId)).Nodup ∧
    List.Perm (((TraceTree.build doc1).flatten).map Prod.fst) (docSpans doc1) :=
  ⟨by decide, flatten_complete doc1 doc1Rank (by decide) doc1Rank_ok⟩
